import Mathlib

/-!
# Verification of the `graceful` service-lifecycle manager

This file gives a shallow embedding of `graceful.go` (package `graceful`,
repository breuHQ/graceful) and proves properties of it.

Modelling conventions, traced from the source:

* `Graceful.svcs` is a Go map from service name to `*ServiceDef`, and
  `Graceful.graph` is a `sync.Map` holding exactly the same name → dependency
  list association (both are written only by `Add`, lines 213-216).  We model
  both by a single association list `Registry`; the uniqueness of Go map keys
  is carried as the explicit hypothesis `NodupKeys`.  Go map iteration order
  is unspecified; the model fixes it to the list (insertion) order.  The
  service objects themselves are irrelevant to the control flow, so an entry
  holds only the name and the dependency list; whether a service's `Start` or
  `Stop` returns an error is supplied separately as a `String → Bool`
  parameter where a claim needs it.
* Go's `degree` map (`map[string]int`, lines 142-147) is an association list
  `List (String × Int)`; `degree[dep]++` on an absent key inserts the value 1
  (Go zero value 0, then increment), which `bumpDeg` reproduces, and
  `degree[dep]--` decrements the existing entry (`decAt`).
* The type assertion `deps.([]string)` (line 180) cannot fail in the model,
  since the graph stores dependency lists by construction; it is omitted.
-/

namespace Graceful

/-- Registry model: the name → dependency-list association stored by `Add`
(one entry per registered service, in registration order). -/
abbrev Registry := List (String × List String)

/-- Names of the registered services (the key set of `g.svcs`). -/
def keys (g : Registry) : List String := g.map Prod.fst

/-- Keys of a Go map are unique; the registry lists we reason about satisfy
this by construction of `Add`. -/
def NodupKeys (g : Registry) : Prop := (keys g).Nodup

instance (g : Registry) : Decidable (NodupKeys g) :=
  inferInstanceAs (Decidable ((keys g).Nodup))

/-- Lookup in the registry (Go map indexing / `sync.Map.Load`): first entry
with the given name. -/
def alookup : Registry → String → Option (List String)
  | [], _ => none
  | (k, v) :: rest, n => if k = n then some v else alookup rest n

/-- Service `n` lists `x` as a dependency: the edge relation of the
dependency graph (an edge from a service to each dependency it lists). -/
def DependsOn (g : Registry) (n x : String) : Prop :=
  ∃ p ∈ g, p.1 = n ∧ x ∈ p.2

instance (g : Registry) (n x : String) : Decidable (DependsOn g n x) :=
  inferInstanceAs (Decidable (∃ p ∈ g, p.1 = n ∧ x ∈ p.2))

/-- The dependency graph is acyclic: no name reaches itself through a
nonempty chain of dependency edges. -/
def Acyclic (g : Registry) : Prop :=
  ∀ x, ¬ Relation.TransGen (DependsOn g) x x

/-- Structural and per-service errors (`GracefulError`, lines 116-131); the
constructor records the `Reason` string of the Go value and, where present,
the offending service name. -/
inductive GErr where
  /-- `"dependency cycle detected"` (line 200). -/
  | cycle : GErr
  /-- `"dependency graph missing entry"` for name `n` (line 177). -/
  | missing (n : String) : GErr
  /-- `"service not found"` for name `n` (line 232). -/
  | notFound (n : String) : GErr
  /-- `"service start failed"` for name `n` (line 251). -/
  | startFailed (n : String) : GErr
  /-- `"service stop failed"` for name `n` (line 279). -/
  | stopFailed (n : String) : GErr
deriving DecidableEq, Repr

/-! ## The degree map (`map[string]int`) -/

/-- Value of `degree[k]` (Go map read; absent keys read as the zero value 0
only behind a presence check in the source, so the default is never
observed there). -/
def getD : List (String × Int) → String → Int
  | [], _ => 0
  | (k, v) :: rest, n => if k = n then v else getD rest n

/-- Presence check `_, ok := degree[k]`. -/
def containsKey : List (String × Int) → String → Bool
  | [], _ => false
  | (k, _) :: rest, n => k = n || containsKey rest n

/-- `degree[k]++`: increment the entry, inserting value 1 if absent. -/
def bumpDeg : List (String × Int) → String → List (String × Int)
  | [], k => [(k, 1)]
  | (k', v) :: rest, k =>
    if k' = k then (k', v + 1) :: rest else (k', v) :: bumpDeg rest k

/-- `degree[k]--` on a present key. -/
def decAt : List (String × Int) → String → List (String × Int)
  | [], _ => []
  | (k', v) :: rest, k =>
    if k' = k then (k', v - 1) :: rest else (k', v) :: decAt rest k

/-- `if _, ok := degree[name]; !ok { degree[name] = 0 }` (lines 153-155). -/
def ensureKey (d : List (String × Int)) (k : String) : List (String × Int) :=
  if containsKey d k then d else d ++ [(k, 0)]

/-- First loop of `sort` (lines 143-147): count, for every name, how many
times it occurs in a dependency list. -/
def initDegree (g : Registry) : List (String × Int) :=
  g.foldl (fun d p => p.2.foldl bumpDeg d) []

/-- Body of the seeding loop of `sort` (lines 152-160) for one service
name: make sure the name has a degree entry, then enqueue it if its
in-degree is 0. -/
def seedStep (st : List (String × Int) × List String) (name : String) :
    List (String × Int) × List String :=
  let d := ensureKey st.1 name
  if getD d name = 0 then (d, st.2 ++ [name]) else (d, st.2)

/-- Seeding loop of `sort` (lines 152-160), iterating over the registered
names in registration order. -/
def seedQueue (g : Registry) (d : List (String × Int)) :
    List (String × Int) × List String :=
  (keys g).foldl seedStep (d, [])

/-- Inner loop of `sort` (lines 185-194): walk the dependency list of the
dequeued node; for each dependency present in the degree map, decrement it
and record it for enqueueing if it just reached 0.  Returns the updated map
and the newly enqueued names in encounter order. -/
def decDeps (d : List (String × Int)) : List String → List (String × Int) × List String
  | [] => (d, [])
  | dep :: rest =>
    if containsKey d dep then
      let d1 := decAt d dep
      let r := decDeps d1 rest
      if getD d1 dep = 0 then (r.1, dep :: r.2) else (r.1, r.2)
    else decDeps d rest

/-- Termination measure helper: sum of the positive parts of the degree
values. -/
def posSum : List (String × Int) → Nat
  | [] => 0
  | p :: rest => p.2.toNat + posSum rest

theorem posSum_decAt_le (d : List (String × Int)) (k : String) :
    posSum (decAt d k) ≤ posSum d := by
  induction d with
  | nil => simp [decAt]
  | cons p rest ih =>
    obtain ⟨k', v⟩ := p
    by_cases h : k' = k
    · simp only [decAt, if_pos h, posSum]
      omega
    · simp only [decAt, if_neg h, posSum]
      omega

theorem posSum_decAt_lt (d : List (String × Int)) (k : String)
    (h : getD (decAt d k) k = 0) (hc : containsKey d k = true) :
    posSum (decAt d k) < posSum d := by
  induction d with
  | nil => simp [containsKey] at hc
  | cons p rest ih =>
    obtain ⟨k', v⟩ := p
    by_cases hk : k' = k
    · simp only [decAt, if_pos hk, getD, if_pos hk, posSum] at h ⊢
      omega
    · simp only [decAt, if_neg hk, getD, if_neg hk, posSum,
        containsKey, hk] at h hc ⊢
      simp at hc
      have := ih h hc
      omega

theorem decDeps_measure (deps : List String) :
    ∀ d : List (String × Int),
      posSum (decDeps d deps).1 + (decDeps d deps).2.length ≤ posSum d := by
  induction deps with
  | nil => intro d; simp [decDeps]
  | cons dep rest ih =>
    intro d
    by_cases hc : containsKey d dep
    · by_cases hz : getD (decAt d dep) dep = 0
      · have h1 := posSum_decAt_lt d dep hz hc
        have h2 := ih (decAt d dep)
        simp [decDeps, hc, hz]
        omega
      · have h1 := posSum_decAt_le d dep
        have h2 := ih (decAt d dep)
        simp [decDeps, hc, hz]
        omega
    · simpa [decDeps, hc] using ih d

/-- Main loop of `sort` plus the post-loop cycle check and final reversal
(lines 166-209).  The queue is consumed from the front; newly ready nodes
are appended at the back; a dequeued name absent from the graph aborts with
the missing-entry error; after the loop, any remaining positive in-degree
signals a cycle, and on success the emission order is reversed. -/
def kahnLoop (g : Registry) (degree : List (String × Int)) (queue order : List String) :
    Except GErr (List String) :=
  match queue with
  | [] =>
    if degree.any (fun p => 0 < p.2) then .error .cycle else .ok order.reverse
  | name :: rest =>
    match alookup g name with
    | none => .error (.missing name)
    | some deps =>
      let r := decDeps degree deps
      kahnLoop g r.1 (rest ++ r.2) (order ++ [name])
termination_by posSum degree + queue.length
decreasing_by
  have := decDeps_measure deps degree
  simp only [List.length_append, List.length_cons]
  omega

/-- `Graceful.sort` (lines 140-210). -/
def sort (g : Registry) : Except GErr (List String) :=
  let d0 := initDegree g
  let s := seedQueue g d0
  kahnLoop g s.1 s.2 []

example : sort [("a", []), ("b", ["a"])] = .ok ["a", "b"] := by
  simp [sort, initDegree, seedQueue, seedStep, keys, ensureKey, containsKey,
    getD, bumpDeg, kahnLoop, alookup, decDeps, decAt]
example : sort [("a", ["b"]), ("b", ["a"])] = .error .cycle := by
  simp [sort, initDegree, seedQueue, seedStep, keys, ensureKey, containsKey,
    getD, bumpDeg, kahnLoop, alookup, decDeps, decAt]
example : sort [("b", ["a"])] = .error (.missing "a") := by
  simp [sort, initDegree, seedQueue, seedStep, keys, ensureKey, containsKey,
    getD, bumpDeg, kahnLoop, alookup, decDeps, decAt]

/-! ## `Start` and `Stop`

The mutable fields of the `Graceful` struct that the control flow reads are
the registry and the started-order slice `g.order`; the set of `ServiceDef`s
whose `sync.Once` has fired persists across `Start` calls and is modelled by
the name list `onceDone` (valid while the registry is not re-`Add`ed, which
would allocate a fresh `ServiceDef` and hence a fresh `once`). -/

/-- Persistent state of a `Graceful` value between calls. -/
structure GState where
  svcs : Registry
  onceDone : List String
  order : List String
deriving DecidableEq, Repr

/-- Result of the modelled `Start`.  `launches` records, in loop order, the
services whose start goroutine was launched during the call.  `hang` marks
the run that busy-waits forever on line 241-246 (a dependency that is never
marked in the local `started` map); the Go function never returns in that
case. -/
inductive StartRes where
  | err (e : GErr) (launches : List String) : StartRes
  | hang (launches : List String) : StartRes
  | ok (st : GState) (launches : List String) : StartRes
deriving DecidableEq, Repr

/-- Loop body of `Start` (lines 229-258) over the sorted names.  `started`
is the call-local `started` map (a name list).  Within the `once.Do` body
the dependency busy-wait precedes the goroutine launch, the append to
`g.order`, and the `started` mark, in source order.  The `svc == nil` check
(line 235) cannot fire in the model because the registry stores no nil
definitions. -/
def startLoop (names : List String) (st : GState) (started launches : List String) :
    StartRes :=
  match names with
  | [] => .ok st launches
  | name :: rest =>
    match alookup st.svcs name with
    | none => .err (.notFound name) launches
    | some deps =>
      if name ∈ st.onceDone then
        startLoop rest st started launches
      else
        if deps.all (fun dep => started.contains dep) then
          startLoop rest ⟨st.svcs, st.onceDone ++ [name], st.order ++ [name]⟩
            (started ++ [name]) (launches ++ [name])
        else
          .hang launches

/-- `Graceful.Start` (lines 220-261): sort, then walk the sorted order.  A
sort failure is returned before any service is touched. -/
def start (st : GState) : StartRes :=
  match sort st.svcs with
  | .error e => .err e []
  | .ok sorted => startLoop sorted st [] []

/-- Names among the launched services whose start operation returns an
error.  Each such goroutine sends on the unbuffered `g.cherr` (line 251);
since nothing receives during `Start`, every one of these senders is still
blocked when `Stop` later runs.  The order of this list is not meaningful
(goroutine completion order is scheduler-dependent); only membership is
used. -/
def startFailures (launches : List String) (startErr : String → Bool) : List String :=
  launches.filter startErr

/-- Stop invocations, in goroutine-launch order: `Stop` (lines 266-287)
walks `g.order` back to front and each goroutine invokes `Stop` on the
first registry entry carrying the name (skipping the invocation when no
entry matches). -/
def stopLaunches (st : GState) : List String :=
  st.order.reverse.filter (fun n => (alookup st.svcs n).isSome)

/-- Outcome of `Graceful.Stop` (lines 265-295).  `pending` lists the errors
of start goroutines still blocked sending on `g.cherr` (empty when no start
failed, and also when `Stop` runs before `Start`, where `g.cherr` is the
nil channel, never ready in the final `select`).  A stop goroutine whose
`Stop` returns an error sends on the unbuffered `g.cherr` before its
deferred `wg.Done` can run; no receiver exists until after `wg.Wait`, so
such a send blocks forever and `wg.Wait` never returns: the call deadlocks,
modelled as `none`.  Otherwise `wg.Wait` passes and the single non-blocking
`select` receive yields a blocked sender's error if one exists, else `nil`. -/
def stopResult (st : GState) (stopErr : String → Bool) (pending : List GErr) :
    Option (Option GErr) :=
  if (stopLaunches st).any stopErr then none
  else
    match pending with
    | [] => some none
    | e :: _ => some (some e)

example :
    start ⟨[("a", []), ("b", ["a"])], [], []⟩ =
      .ok ⟨[("a", []), ("b", ["a"])], ["a", "b"], ["a", "b"]⟩ ["a", "b"] := by
  simp [start, sort, initDegree, seedQueue, seedStep, keys, ensureKey,
    containsKey, getD, bumpDeg, kahnLoop, alookup, decDeps, decAt, startLoop]

/-! ## Runs of the launched goroutines

`Start` launches one goroutine per service (line 249); the goroutine bodies
execute under an arbitrary scheduler.  A run of one `Start` call is modelled
as a list of events: the spawn of each service's goroutine (which the
sequential loop performs in launch order), and the begin and end of each
service's start-operation body.  Admissibility captures exactly the orderings
the Go runtime guarantees: spawns occur in loop order, a body begins only
after its spawn, ends only after it begins, and does so at most once. -/

/-- One scheduling event during a `Start` run. -/
inductive Ev where
  | spawned (n : String) : Ev
  | began (n : String) : Ev
  | ended (n : String) : Ev
deriving DecidableEq, Repr

/-- The spawn events of a trace, in order. -/
def spawnsOf (t : List Ev) : List String :=
  t.filterMap fun e => match e with | .spawned n => some n | _ => none

/-- Element `a` occurs strictly before element `b` in `l`. -/
def Before {α : Type} (l : List α) (a b : α) : Prop :=
  ∃ l₁ l₂ l₃, l = l₁ ++ a :: l₂ ++ b :: l₃

/-- Index of the first occurrence of `a` in `l` (length of `l` if absent). -/
def natIdx {α : Type} [DecidableEq α] : List α → α → Nat
  | [], _ => 0
  | b :: rest, a => if b = a then 0 else natIdx rest a + 1

/-- A trace is a possible interleaving of one `Start` call whose launch
sequence was `L`: the spawns are exactly `L` in order; each begin follows
the corresponding spawn; each end follows the corresponding begin; begins
and ends are unrepeated.  No other ordering is enforced by the source: the
spawned goroutine (line 249-253) synchronizes with nothing before running
the service's start operation. -/
def Admissible (L : List String) (t : List Ev) : Prop :=
  spawnsOf t = L ∧
  (∀ n, Ev.began n ∈ t → Before t (Ev.spawned n) (Ev.began n)) ∧
  (∀ n, Ev.ended n ∈ t → Before t (Ev.began n) (Ev.ended n)) ∧
  (∀ n, t.count (Ev.began n) ≤ 1 ∧ t.count (Ev.ended n) ≤ 1)

/-! ## List-order helper lemmas -/

theorem mem_left_of_before {α : Type} {l : List α} {a b : α}
    (h : Before l a b) : a ∈ l := by
  obtain ⟨l₁, l₂, l₃, rfl⟩ := h
  simp

theorem mem_right_of_before {α : Type} {l : List α} {a b : α}
    (h : Before l a b) : b ∈ l := by
  obtain ⟨l₁, l₂, l₃, rfl⟩ := h
  simp

theorem natIdx_cons_self {α : Type} [DecidableEq α] (l : List α) (a : α) :
    natIdx (a :: l) a = 0 := by
  simp [natIdx]

theorem natIdx_append_of_not_mem {α : Type} [DecidableEq α] {p : List α} {a : α}
    (h : a ∉ p) (l : List α) :
    natIdx (p ++ l) a = p.length + natIdx l a := by
  induction p with
  | nil => simp
  | cons b rest ih =>
    have hb : b ≠ a := by
      intro e; exact h (by simp [e])
    have ha : a ∉ rest := fun hm => h (by simp [hm])
    simp [natIdx, hb, ih ha]
    omega

theorem natIdx_append_cons_le {α : Type} [DecidableEq α] (p q : List α) (a : α) :
    natIdx (p ++ a :: q) a ≤ p.length := by
  induction p with
  | nil => simp [natIdx]
  | cons c p' ih =>
    by_cases hc : c = a
    · simp [natIdx, hc]
    · simp only [List.cons_append, natIdx, if_neg hc, List.length_cons,
        List.append_eq]
      omega

theorem natIdx_inj {α : Type} [DecidableEq α] {l : List α} {a b : α}
    (ha : a ∈ l) (hb : b ∈ l) (h : natIdx l a = natIdx l b) : a = b := by
  induction l with
  | nil => simp at ha
  | cons c rest ih =>
    by_cases hca : c = a <;> by_cases hcb : c = b
    · rw [← hca, hcb]
    · exfalso
      have h1 : natIdx (c :: rest) a = 0 := by simp [natIdx, hca]
      have h2 : natIdx (c :: rest) b = natIdx rest b + 1 := by
        simp [natIdx, hcb]
      rw [h1, h2] at h
      omega
    · exfalso
      have h1 : natIdx (c :: rest) b = 0 := by simp [natIdx, hcb]
      have h2 : natIdx (c :: rest) a = natIdx rest a + 1 := by
        simp [natIdx, hca]
      rw [h1, h2] at h
      omega
    · have ha' : a ∈ rest := List.mem_of_ne_of_mem (fun e => hca e.symm) ha
      have hb' : b ∈ rest := List.mem_of_ne_of_mem (fun e => hcb e.symm) hb
      simp only [natIdx, if_neg hca, if_neg hcb, Nat.add_right_cancel_iff] at h
      exact ih ha' hb' h

theorem before_of_natIdx_lt {α : Type} [DecidableEq α] {l : List α} {a b : α}
    (ha : a ∈ l) (hb : b ∈ l) (h : natIdx l a < natIdx l b) : Before l a b := by
  induction l with
  | nil => simp at ha
  | cons c rest ih =>
    by_cases hca : c = a
    · have hcb : c ≠ b := by
        intro e
        rw [← hca, ← e] at h
        simp [natIdx] at h
      have hb' : b ∈ rest := List.mem_of_ne_of_mem (fun e => hcb e.symm) hb
      obtain ⟨p, q, e⟩ := List.append_of_mem hb'
      exact ⟨[], p, q, by simp [e, hca]⟩
    · have hcb : c ≠ b := by
        intro e
        simp [natIdx, hca, e] at h
      have ha' : a ∈ rest := List.mem_of_ne_of_mem (fun e => hca e.symm) ha
      have hb' : b ∈ rest := List.mem_of_ne_of_mem (fun e => hcb e.symm) hb
      have h' : natIdx rest a < natIdx rest b := by
        simp only [natIdx, if_neg hca, if_neg hcb] at h
        omega
      obtain ⟨l₁, l₂, l₃, e⟩ := ih ha' hb' h'
      exact ⟨c :: l₁, l₂, l₃, by simp [e]⟩

theorem natIdx_lt_of_before {α : Type} [DecidableEq α] {l : List α} {a b : α}
    (hnd : l.Nodup) (h : Before l a b) : natIdx l a < natIdx l b := by
  obtain ⟨l₁, l₂, l₃, rfl⟩ := h
  have hsplit : l₁ ++ a :: l₂ ++ b :: l₃ = (l₁ ++ a :: l₂) ++ b :: l₃ := by simp
  have hcount : List.count b (l₁ ++ a :: l₂ ++ b :: l₃) ≤ 1 :=
    List.nodup_iff_count_le_one.mp hnd b
  have hbp : b ∉ l₁ ++ a :: l₂ := by
    intro hm
    rw [hsplit, List.count_append, List.count_cons_self] at hcount
    have := List.count_pos_iff_mem.mpr hm
    omega
  have e2 : natIdx (l₁ ++ a :: l₂ ++ b :: l₃) b = (l₁ ++ a :: l₂).length := by
    rw [hsplit, natIdx_append_of_not_mem hbp, natIdx_cons_self]
    omega
  have e1 : natIdx (l₁ ++ a :: l₂ ++ b :: l₃) a ≤ l₁.length := by
    rw [show l₁ ++ a :: l₂ ++ b :: l₃ = l₁ ++ a :: (l₂ ++ b :: l₃) by simp]
    exact natIdx_append_cons_le l₁ _ a
  rw [e2]
  simp only [List.length_append, List.length_cons]
  omega

theorem before_trichotomy {α : Type} [DecidableEq α] {l : List α} {a b : α}
    (ha : a ∈ l) (hb : b ∈ l) (hne : a ≠ b) : Before l a b ∨ Before l b a := by
  rcases Nat.lt_trichotomy (natIdx l a) (natIdx l b) with h | h | h
  · exact Or.inl (before_of_natIdx_lt ha hb h)
  · exact absurd (natIdx_inj ha hb h) hne
  · exact Or.inr (before_of_natIdx_lt hb ha h)

theorem rel_of_pairwise_before {α : Type} {R : α → α → Prop} {l : List α} {a b : α}
    (hp : l.Pairwise R) (h : Before l a b) : R a b := by
  obtain ⟨l₁, l₂, l₃, rfl⟩ := h
  have h2 := (List.pairwise_append.mp hp).2.2
  exact h2 a (by simp) b (by simp)

theorem mem_take_of_natIdx_lt {α : Type} [DecidableEq α] {p rest : List α} {x : α}
    (hx : x ∈ p ++ rest) (h : natIdx (p ++ rest) x < p.length) : x ∈ p := by
  induction p with
  | nil => simp at h
  | cons c p' ih =>
    by_cases hc : c = x
    · simp [hc]
    · have hx' : x ∈ p' ++ rest := by
        have : x ∈ c :: (p' ++ rest) := by simpa using hx
        exact List.mem_of_ne_of_mem (fun e => hc e.symm) this
      have h' : natIdx (p' ++ rest) x < p'.length := by
        simp only [List.cons_append, natIdx, if_neg hc, List.length_cons,
          List.append_eq] at h
        omega
      exact List.mem_cons_of_mem c (ih hx' h')

/-! ## Cycle-extraction and rank helpers -/

theorem transGen_lt {α : Type} {r : α → α → Prop} {f : α → Nat}
    (h : ∀ a b, r a b → f b < f a) {a b : α}
    (ht : Relation.TransGen r a b) : f b < f a := by
  induction ht with
  | single h' => exact h _ _ h'
  | tail _ hbc ih => exact lt_trans (h _ _ hbc) ih

/-- Sufficient condition for acyclicity: a rank that strictly drops along
every dependency edge. -/
theorem acyclic_of_rank (g : Registry) (rank : String → Nat)
    (h : ∀ n x, DependsOn g n x → rank x < rank n) : Acyclic g := by
  intro x hx
  exact absurd (transGen_lt h hx) (lt_irrefl _)

/-- On a finite set in which every element has an `r`-predecessor inside the
set, some element lies on an `r`-cycle. -/
theorem exists_transGen_cycle {α : Type} [DecidableEq α] {r : α → α → Prop}
    (S : Finset α) (hne : S.Nonempty) (h : ∀ x ∈ S, ∃ y ∈ S, r y x) :
    ∃ z, Relation.TransGen r z z := by
  classical
  obtain ⟨x₀, hx₀⟩ := hne
  let next : {a // a ∈ S} → {a // a ∈ S} := fun x =>
    ⟨(h x.1 x.2).choose, (h x.1 x.2).choose_spec.1⟩
  have hnext : ∀ x : {a // a ∈ S}, r (next x).1 x.1 := fun x =>
    (h x.1 x.2).choose_spec.2
  let seq : Nat → {a // a ∈ S} := fun n => next^[n] ⟨x₀, hx₀⟩
  have hseq : ∀ n, seq (n + 1) = next (seq n) := by
    intro n
    simp only [seq, Function.iterate_succ_apply']
  have hchain : ∀ i j, i < j → Relation.TransGen r (seq j).1 (seq i).1 := by
    intro i j hij
    induction j with
    | zero => omega
    | succ j ih =>
      rcases Nat.lt_succ_iff_lt_or_eq.mp hij with h' | h'
      · exact (Relation.TransGen.head (by rw [hseq j]; exact hnext (seq j)) (ih h'))
      · subst h'
        exact Relation.TransGen.single (by rw [hseq i]; exact hnext (seq i))
  have hcard : Fintype.card {a // a ∈ S} < Fintype.card (Fin (S.card + 1)) := by
    simp [Fintype.card_coe]
  obtain ⟨i, j, hij, hfe⟩ :=
    Fintype.exists_ne_map_eq_of_card_lt (fun n : Fin (S.card + 1) => seq n.1) hcard
  replace hfe : seq i.1 = seq j.1 := hfe
  rcases Nat.lt_or_ge i.1 j.1 with h' | h'
  · refine ⟨(seq i.1).1, ?_⟩
    have h2 := hchain i.1 j.1 h'
    rw [← hfe] at h2
    exact h2
  · have h'' : j.1 < i.1 := by
      rcases Nat.lt_or_ge j.1 i.1 with h'' | h''
      · exact h''
      · exact absurd (Fin.ext (Nat.le_antisymm h'' h')) hij
    refine ⟨(seq j.1).1, ?_⟩
    have h2 := hchain j.1 i.1 h''
    rw [hfe] at h2
    exact h2

/-! ## Degree-map bookkeeping lemmas -/

/-- All names occurring in some dependency list. -/
def depsUniv (g : Registry) : List String := (g.map Prod.snd).join

/-- Number of occurrences of `x` in the dependency lists of the services not
yet emitted (not in `order`).  The degree map tracks exactly this quantity. -/
def remOcc (g : Registry) (order : List String) (x : String) : Nat :=
  (g.map (fun p => if p.1 ∈ order then 0 else p.2.count x)).sum

theorem mem_depsUniv {g : Registry} {x : String} :
    x ∈ depsUniv g ↔ ∃ p ∈ g, x ∈ p.2 := by
  simp only [depsUniv, List.mem_join, List.mem_map]
  constructor
  · rintro ⟨l, ⟨p, hp, rfl⟩, hx⟩
    exact ⟨p, hp, hx⟩
  · rintro ⟨p, hp, hx⟩
    exact ⟨p.2, ⟨p, hp, rfl⟩, hx⟩

theorem keys_cons (p : String × List String) (g : Registry) :
    keys (p :: g) = p.1 :: keys g := rfl

theorem nodupKeys_cons {p : String × List String} {g : Registry}
    (h : NodupKeys (p :: g)) : p.1 ∉ keys g ∧ NodupKeys g := by
  rw [NodupKeys, keys_cons, List.nodup_cons] at h
  exact h

theorem alookup_mem {g : Registry} {name : String} {deps : List String}
    (h : alookup g name = some deps) : (name, deps) ∈ g := by
  induction g with
  | nil => simp [alookup] at h
  | cons p rest ih =>
    obtain ⟨k, v⟩ := p
    simp only [alookup] at h
    by_cases hk : k = name
    · rw [if_pos hk] at h
      injection h with hv
      subst hk
      subst hv
      exact List.mem_cons_self _ _
    · rw [if_neg hk] at h
      exact List.mem_cons_of_mem _ (ih h)

theorem mem_depsUniv_of_lookup {g : Registry} {name : String} {deps : List String}
    (h : alookup g name = some deps) {x : String} (hx : x ∈ deps) :
    x ∈ depsUniv g :=
  mem_depsUniv.mpr ⟨(name, deps), alookup_mem h, hx⟩

theorem alookup_isSome_of_mem_keys {g : Registry} {name : String}
    (h : name ∈ keys g) : ∃ deps, alookup g name = some deps := by
  induction g with
  | nil => simp [keys] at h
  | cons p rest ih =>
    obtain ⟨k, v⟩ := p
    by_cases hk : k = name
    · exact ⟨v, by simp [alookup, hk]⟩
    · have h' : name ∈ keys rest := by
        rw [keys_cons] at h
        rcases List.mem_cons.mp h with h | h
        · exact absurd h.symm hk
        · exact h
      obtain ⟨deps, hd⟩ := ih h'
      exact ⟨deps, by simpa [alookup, hk] using hd⟩

theorem mem_keys_of_alookup {g : Registry} {name : String} {deps : List String}
    (h : alookup g name = some deps) : name ∈ keys g := by
  have := alookup_mem h
  exact List.mem_map.mpr ⟨(name, deps), this, rfl⟩

theorem alookup_eq_none_iff {g : Registry} {name : String} :
    alookup g name = none ↔ name ∉ keys g := by
  constructor
  · intro h hm
    obtain ⟨deps, hd⟩ := alookup_isSome_of_mem_keys hm
    rw [h] at hd
    cases hd
  · intro h
    cases he : alookup g name with
    | none => rfl
    | some deps => exact absurd (mem_keys_of_alookup he) h

/-- A `DependsOn` edge seen through `alookup`. -/
theorem dependsOn_of_lookup {g : Registry} {name : String} {deps : List String}
    (h : alookup g name = some deps) {x : String} (hx : x ∈ deps) :
    DependsOn g name x :=
  ⟨(name, deps), alookup_mem h, rfl, hx⟩

theorem count_le_remOcc {g : Registry} {order : List String} {name : String}
    {dn : List String} (hmem : (name, dn) ∈ g) (hno : name ∉ order) (x : String) :
    dn.count x ≤ remOcc g order x := by
  induction g with
  | nil => simp at hmem
  | cons p rest ih =>
    rcases List.mem_cons.mp hmem with h | h
    · subst h
      simp only [remOcc, List.map_cons, List.sum_cons]
      rw [if_neg hno]
      exact Nat.le_add_right _ _
    · have := ih h
      simp only [remOcc, List.map_cons, List.sum_cons] at this ⊢
      omega

theorem remOcc_pos_dependent {g : Registry} {order : List String} {x : String}
    (h : 0 < remOcc g order x) :
    ∃ n, n ∉ order ∧ n ∈ keys g ∧ DependsOn g n x := by
  induction g with
  | nil => simp [remOcc] at h
  | cons p rest ih =>
    simp only [remOcc, List.map_cons, List.sum_cons] at h
    by_cases hp : p.1 ∈ order
    · rw [if_pos hp, Nat.zero_add] at h
      obtain ⟨n, h1, h2, h3⟩ := ih h
      refine ⟨n, h1, by simp [keys] at h2 ⊢; exact Or.inr h2, ?_⟩
      obtain ⟨q, hq, he, hx⟩ := h3
      exact ⟨q, List.mem_cons_of_mem _ hq, he, hx⟩
    · rw [if_neg hp] at h
      by_cases hc : 0 < p.2.count x
      · refine ⟨p.1, hp, by simp [keys], ⟨p, by simp, rfl, ?_⟩⟩
        exact List.count_pos_iff_mem.mp hc
      · have h' : 0 < remOcc rest order x := by
          simp only [remOcc]
          omega
        obtain ⟨n, h1, h2, h3⟩ := ih h'
        refine ⟨n, h1, by simp [keys] at h2 ⊢; exact Or.inr h2, ?_⟩
        obtain ⟨q, hq, he, hx⟩ := h3
        exact ⟨q, List.mem_cons_of_mem _ hq, he, hx⟩

theorem remOcc_zero_no_dependent {g : Registry} {order : List String} {x : String}
    (h : remOcc g order x = 0) {n : String} (hdep : DependsOn g n x) :
    n ∈ order := by
  by_contra hno
  obtain ⟨p, hp, he, hx⟩ := hdep
  have hc : 0 < p.2.count x := List.count_pos_iff_mem.mpr hx
  have hmem : (p.1, p.2) ∈ g := by simpa using hp
  have := count_le_remOcc hmem (he ▸ hno) x
  omega

theorem remOcc_irrelevant_append {g : Registry} (order : List String)
    {name : String} (h : name ∉ keys g) (x : String) :
    remOcc g (order ++ [name]) x = remOcc g order x := by
  induction g with
  | nil => simp [remOcc]
  | cons p rest ih =>
    have hp : p.1 ≠ name := by
      intro e
      exact h (by simp [keys, e])
    have h' : name ∉ keys rest := by
      intro hm
      exact h (by simp [keys] at hm ⊢; exact Or.inr hm)
    simp only [remOcc, List.map_cons, List.sum_cons] at ih ⊢
    have hmm : (p.1 ∈ order ++ [name]) ↔ p.1 ∈ order := by
      simp [List.mem_append, hp]
    by_cases ho : p.1 ∈ order
    · rw [if_pos (hmm.mpr ho), if_pos ho, ih h']
    · rw [if_neg (fun hq => ho (hmm.mp hq)), if_neg ho]
      have := ih h'
      omega

/-- Emitting `name` removes exactly its dependency list from the remaining
occurrence counts (unique keys). -/
theorem remOcc_append_emit {g : Registry} (hk : NodupKeys g) {order : List String}
    {name : String} {dn : List String} (hlk : alookup g name = some dn)
    (hno : name ∉ order) (x : String) :
    remOcc g order x = remOcc g (order ++ [name]) x + dn.count x := by
  induction g with
  | nil => simp [alookup] at hlk
  | cons p rest ih =>
    have hk' : NodupKeys rest := by
      simp [NodupKeys, keys] at hk ⊢
      exact hk.2
    by_cases hp : p.1 = name
    · obtain ⟨k, v⟩ := p
      simp only at hp
      subst hp
      simp only [alookup, if_pos rfl] at hlk
      cases hlk
      have hrest : k ∉ keys rest := (nodupKeys_cons hk).1
      simp only [remOcc, List.map_cons, List.sum_cons]
      rw [if_neg hno, if_pos (by simp)]
      have := remOcc_irrelevant_append (g := rest) order hrest x
      simp only [remOcc] at this
      omega
    · obtain ⟨k, v⟩ := p
      simp only at hp
      simp only [alookup, if_neg hp] at hlk
      have := ih hk' hlk
      simp only [remOcc, List.map_cons, List.sum_cons] at this ⊢
      have hmm : (k ∈ order ++ [name]) ↔ k ∈ order := by
        simp [List.mem_append, hp]
      by_cases ho : k ∈ order
      · rw [if_pos (hmm.mpr ho), if_pos ho]
        omega
      · rw [if_neg (fun hq => ho (hmm.mp hq)), if_neg ho]
        omega

theorem containsKey_decAt (d : List (String × Int)) (k x : String) :
    containsKey (decAt d k) x = containsKey d x := by
  induction d with
  | nil => simp [decAt]
  | cons p rest ih =>
    obtain ⟨k', v⟩ := p
    by_cases h : k' = k
    · simp [decAt, h, containsKey]
    · simp [decAt, h, containsKey, ih]

theorem getD_decAt_ne {x k : String} (h : x ≠ k) (d : List (String × Int)) :
    getD (decAt d k) x = getD d x := by
  induction d with
  | nil => simp [decAt]
  | cons p rest ih =>
    obtain ⟨k', v⟩ := p
    by_cases hk : k' = k
    · subst hk
      rw [show decAt ((k', v) :: rest) k' = (k', v - 1) :: rest by
        simp [decAt]]
      have hx : k' ≠ x := fun e => h (e.symm.trans rfl)
      simp [getD, hx]
    · rw [show decAt ((k', v) :: rest) k = (k', v) :: decAt rest k by
        simp [decAt, hk]]
      by_cases hx : k' = x
      · simp [getD, hx]
      · simp [getD, hx, ih]

theorem getD_decAt_self {d : List (String × Int)} {k : String}
    (h : containsKey d k = true) : getD (decAt d k) k = getD d k - 1 := by
  induction d with
  | nil => simp [containsKey] at h
  | cons p rest ih =>
    obtain ⟨k', v⟩ := p
    by_cases hk : k' = k
    · subst hk
      rw [show decAt ((k', v) :: rest) k' = (k', v - 1) :: rest by
        simp [decAt]]
      simp [getD]
    · rw [show decAt ((k', v) :: rest) k = (k', v) :: decAt rest k by
        simp [decAt, hk]]
      have h' : containsKey rest k = true := by
        simp only [containsKey, Bool.or_eq_true, decide_eq_true_eq] at h
        rcases h with h | h
        · exact absurd h hk
        · exact h
      simp [getD, hk, ih h']

theorem decDeps_cons_present {d : List (String × Int)} {dep : String}
    (rest : List String) (hc : containsKey d dep = true) :
    decDeps d (dep :: rest) =
      (if getD (decAt d dep) dep = 0
       then ((decDeps (decAt d dep) rest).1, dep :: (decDeps (decAt d dep) rest).2)
       else ((decDeps (decAt d dep) rest).1, (decDeps (decAt d dep) rest).2)) := by
  by_cases hz : getD (decAt d dep) dep = 0 <;> simp [decDeps, hc, hz]

/-- `decDeps` never changes the key set of the degree map. -/
theorem containsKey_decDeps (deps : List String) :
    ∀ d x, containsKey (decDeps d deps).1 x = containsKey d x := by
  induction deps with
  | nil => intro d x; simp [decDeps]
  | cons dep rest ih =>
    intro d x
    by_cases hc : containsKey d dep
    · rw [decDeps_cons_present rest hc]
      by_cases hz : getD (decAt d dep) dep = 0
      · rw [if_pos hz]
        rw [show (((decDeps (decAt d dep) rest).1,
            dep :: (decDeps (decAt d dep) rest).2)).1 =
          (decDeps (decAt d dep) rest).1 from rfl]
        rw [ih, containsKey_decAt]
      · rw [if_neg hz]
        rw [show (((decDeps (decAt d dep) rest).1,
            (decDeps (decAt d dep) rest).2)).1 =
          (decDeps (decAt d dep) rest).1 from rfl]
        rw [ih, containsKey_decAt]
    · rw [show decDeps d (dep :: rest) = decDeps d rest by
        simp [decDeps, hc]]
      exact ih d x

/-- Value change of `decDeps`: each occurrence of a present key decrements
it once. -/
theorem getD_decDeps (deps : List String) :
    ∀ d, (∀ y ∈ deps, containsKey d y = true) →
      ∀ x, getD (decDeps d deps).1 x = getD d x - (deps.count x : Int) := by
  induction deps with
  | nil => intro d _ x; simp [decDeps]
  | cons dep rest ih =>
    intro d hdom x
    have hc : containsKey d dep = true := hdom dep (by simp)
    have hdom' : ∀ y ∈ rest, containsKey (decAt d dep) y = true := by
      intro y hy
      rw [containsKey_decAt]
      exact hdom y (by simp [hy])
    have hx : getD (decDeps (decAt d dep) rest).1 x =
        getD (decAt d dep) x - (rest.count x : Int) := ih (decAt d dep) hdom' x
    have hres : (decDeps d (dep :: rest)).1 = (decDeps (decAt d dep) rest).1 := by
      rw [decDeps_cons_present rest hc]
      by_cases hz : getD (decAt d dep) dep = 0
      · rw [if_pos hz]
      · rw [if_neg hz]
    rw [hres, hx]
    by_cases hxd : x = dep
    · subst hxd
      rw [getD_decAt_self hc, List.count_cons_self]
      push_cast
      omega
    · rw [getD_decAt_ne hxd, List.count_cons_of_ne hxd]

/-- Membership in the newly enqueued list of `decDeps`: exactly the names
whose running value passes through 0 during the scan. -/
theorem mem_decDeps_snd (deps : List String) :
    ∀ d, (∀ y ∈ deps, containsKey d y = true) →
      ∀ x, (x ∈ (decDeps d deps).2 ↔
        1 ≤ getD d x ∧ getD d x ≤ (deps.count x : Int)) := by
  induction deps with
  | nil =>
    intro d _ x
    simp [decDeps]
    omega
  | cons dep rest ih =>
    intro d hdom x
    have hc : containsKey d dep = true := hdom dep (by simp)
    have hdom' : ∀ y ∈ rest, containsKey (decAt d dep) y = true := by
      intro y hy
      rw [containsKey_decAt]
      exact hdom y (by simp [hy])
    have hih := ih (decAt d dep) hdom' x
    rw [decDeps_cons_present rest hc]
    by_cases hxd : x = dep
    · subst hxd
      rw [getD_decAt_self hc] at hih
      by_cases hz : getD (decAt d x) x = 0
      · have hz' : getD d x = 1 := by
          rw [getD_decAt_self hc] at hz
          omega
        rw [if_pos hz]
        simp only [List.mem_cons, true_or, List.count_cons_self, hz']
        constructor
        · intro _
          constructor
          · omega
          · push_cast
            omega
        · intro _
          trivial
      · have hz' : getD d x ≠ 1 := by
          rw [getD_decAt_self hc] at hz
          omega
        rw [if_neg hz]
        rw [show ((decDeps (decAt d x) rest).1, (decDeps (decAt d x) rest).2).2 =
          (decDeps (decAt d x) rest).2 from rfl]
        rw [hih, List.count_cons_self]
        push_cast
        omega
    · rw [getD_decAt_ne hxd] at hih
      have hcount : (dep :: rest).count x = rest.count x :=
        List.count_cons_of_ne hxd rest
      by_cases hz : getD (decAt d dep) dep = 0
      · rw [if_pos hz]
        rw [show (((decDeps (decAt d dep) rest).1,
            dep :: (decDeps (decAt d dep) rest).2)).2 =
          dep :: (decDeps (decAt d dep) rest).2 from rfl]
        rw [hcount]
        constructor
        · intro hm
          rcases List.mem_cons.mp hm with hm | hm
          · exact absurd hm hxd
          · exact hih.mp hm
        · intro hb
          exact List.mem_cons_of_mem _ (hih.mpr hb)
      · rw [if_neg hz]
        rw [show (((decDeps (decAt d dep) rest).1,
            (decDeps (decAt d dep) rest).2)).2 =
          (decDeps (decAt d dep) rest).2 from rfl]
        rw [hcount]
        exact hih

/-- Newly enqueued names are distinct: a value passes through 0 at most
once during a scan that only decrements. -/
theorem nodup_decDeps_snd (deps : List String) :
    ∀ d, (∀ y ∈ deps, containsKey d y = true) →
      (decDeps d deps).2.Nodup := by
  induction deps with
  | nil => intro d _; simp [decDeps]
  | cons dep rest ih =>
    intro d hdom
    have hc : containsKey d dep = true := hdom dep (by simp)
    have hdom' : ∀ y ∈ rest, containsKey (decAt d dep) y = true := by
      intro y hy
      rw [containsKey_decAt]
      exact hdom y (by simp [hy])
    have hih := ih (decAt d dep) hdom'
    rw [decDeps_cons_present rest hc]
    by_cases hz : getD (decAt d dep) dep = 0
    · rw [if_pos hz]
      rw [show (((decDeps (decAt d dep) rest).1,
          dep :: (decDeps (decAt d dep) rest).2)).2 =
        dep :: (decDeps (decAt d dep) rest).2 from rfl]
      rw [List.nodup_cons]
      refine ⟨?_, hih⟩
      intro hm
      have := (mem_decDeps_snd rest (decAt d dep) hdom' dep).mp hm
      omega
    · rw [if_neg hz]
      rw [show (((decDeps (decAt d dep) rest).1,
          (decDeps (decAt d dep) rest).2)).2 =
        (decDeps (decAt d dep) rest).2 from rfl]
      exact hih

theorem getD_bumpDeg_self (d : List (String × Int)) (k : String) :
    getD (bumpDeg d k) k = getD d k + 1 := by
  induction d with
  | nil => simp [bumpDeg, getD]
  | cons p rest ih =>
    obtain ⟨k', v⟩ := p
    by_cases hk : k' = k
    · simp [bumpDeg, hk, getD]
    · simp [bumpDeg, hk, getD, ih]

theorem getD_bumpDeg_ne {x k : String} (h : x ≠ k) (d : List (String × Int)) :
    getD (bumpDeg d k) x = getD d x := by
  induction d with
  | nil =>
    have : k ≠ x := fun e => h e.symm
    simp [bumpDeg, getD, this]
  | cons p rest ih =>
    obtain ⟨k', v⟩ := p
    by_cases hk : k' = k
    · have hx : k' ≠ x := by
        rw [hk]
        exact fun e => h e.symm
      subst hk
      rw [show bumpDeg ((k', v) :: rest) k' = (k', v + 1) :: rest by
        simp [bumpDeg]]
      rw [getD, getD, if_neg hx, if_neg hx]
    · rw [show bumpDeg ((k', v) :: rest) k = (k', v) :: bumpDeg rest k by
        simp [bumpDeg, hk]]
      by_cases hx : k' = x
      · rw [getD, getD, if_pos hx, if_pos hx]
      · rw [getD, getD, if_neg hx, if_neg hx, ih]

theorem containsKey_bumpDeg (d : List (String × Int)) (k x : String) :
    containsKey (bumpDeg d k) x = true ↔ containsKey d x = true ∨ x = k := by
  induction d with
  | nil =>
    simp [bumpDeg, containsKey]
    exact comm
  | cons p rest ih =>
    obtain ⟨k', v⟩ := p
    by_cases hk : k' = k
    · simp [bumpDeg, hk, containsKey]
      intro h
      exact Or.inl h.symm
    · simp [bumpDeg, hk, containsKey, ih]
      rw [or_assoc]

theorem getD_foldl_bumpDeg (deps : List String) :
    ∀ d x, getD (deps.foldl bumpDeg d) x = getD d x + (deps.count x : Int) := by
  induction deps with
  | nil => intro d x; simp
  | cons dep rest ih =>
    intro d x
    rw [List.foldl_cons, ih]
    by_cases hx : x = dep
    · subst hx
      rw [getD_bumpDeg_self, List.count_cons_self]
      push_cast
      omega
    · rw [getD_bumpDeg_ne hx, List.count_cons_of_ne hx]

theorem containsKey_foldl_bumpDeg (deps : List String) :
    ∀ d x, containsKey (deps.foldl bumpDeg d) x = true ↔
      containsKey d x = true ∨ x ∈ deps := by
  induction deps with
  | nil => intro d x; simp
  | cons dep rest ih =>
    intro d x
    rw [List.foldl_cons, ih, containsKey_bumpDeg]
    simp [or_assoc]

theorem depsUniv_cons (p : String × List String) (g : Registry) :
    depsUniv (p :: g) = p.2 ++ depsUniv g := by
  simp [depsUniv]

theorem remOcc_cons_nil (p : String × List String) (g : Registry) (x : String) :
    remOcc (p :: g) [] x = p.2.count x + remOcc g [] x := by
  simp [remOcc]

theorem initDegree_foldl_getD (g : Registry) :
    ∀ d x, getD (g.foldl (fun d p => p.2.foldl bumpDeg d) d) x =
      getD d x + (remOcc g [] x : Int) := by
  induction g with
  | nil => intro d x; simp [remOcc]
  | cons p rest ih =>
    intro d x
    rw [List.foldl_cons, ih, getD_foldl_bumpDeg, remOcc_cons_nil]
    push_cast
    omega

theorem getD_initDegree (g : Registry) (x : String) :
    getD (initDegree g) x = (remOcc g [] x : Int) := by
  rw [initDegree, initDegree_foldl_getD]
  simp [getD]

theorem initDegree_foldl_containsKey (g : Registry) :
    ∀ d x, containsKey (g.foldl (fun d p => p.2.foldl bumpDeg d) d) x = true ↔
      containsKey d x = true ∨ x ∈ depsUniv g := by
  induction g with
  | nil => intro d x; simp [depsUniv]
  | cons p rest ih =>
    intro d x
    rw [List.foldl_cons, ih, containsKey_foldl_bumpDeg, depsUniv_cons]
    simp [or_assoc]

theorem containsKey_initDegree (g : Registry) (x : String) :
    containsKey (initDegree g) x = true ↔ x ∈ depsUniv g := by
  rw [initDegree, initDegree_foldl_containsKey]
  simp [containsKey]

theorem getD_append_zero (d : List (String × Int)) (k x : String) :
    getD (d ++ [(k, 0)]) x = getD d x := by
  induction d with
  | nil =>
    by_cases hk : k = x <;> simp [getD, hk]
  | cons p rest ih =>
    obtain ⟨k', v⟩ := p
    by_cases hx : k' = x <;> simp [getD, hx, ih]

theorem getD_ensureKey (d : List (String × Int)) (k x : String) :
    getD (ensureKey d k) x = getD d x := by
  rw [ensureKey]
  split
  · rfl
  · exact getD_append_zero d k x

theorem containsKey_append_zero (d : List (String × Int)) (k x : String) :
    containsKey (d ++ [(k, 0)]) x = true ↔ containsKey d x = true ∨ k = x := by
  induction d with
  | nil => simp [containsKey]
  | cons p rest ih =>
    obtain ⟨k', v⟩ := p
    by_cases hx : k' = x <;> simp [containsKey, hx, ih, or_assoc]

theorem containsKey_ensureKey (d : List (String × Int)) (k x : String) :
    containsKey (ensureKey d k) x = true ↔ containsKey d x = true ∨ x = k := by
  rw [ensureKey]
  split
  · rename_i hc
    constructor
    · exact Or.inl
    · intro h
      rcases h with h | h
      · exact h
      · exact h ▸ hc
  · rw [containsKey_append_zero]
    constructor
    · intro h
      rcases h with h | h
      · exact Or.inl h
      · exact Or.inr h.symm
    · intro h
      rcases h with h | h
      · exact Or.inl h
      · exact Or.inr h.symm

theorem seedStep_fst (st : List (String × Int) × List String) (n : String) :
    (seedStep st n).1 = ensureKey st.1 n := by
  rw [seedStep]
  split <;> rfl

theorem seedStep_snd (st : List (String × Int) × List String) (n : String) :
    (seedStep st n).2 =
      if getD st.1 n = 0 then st.2 ++ [n] else st.2 := by
  rw [seedStep]
  rw [getD_ensureKey]
  split <;> rfl

theorem seed_foldl_fst_getD (names : List String) :
    ∀ d q x, getD ((names.foldl seedStep (d, q)).1) x = getD d x := by
  induction names with
  | nil => intro d q x; rfl
  | cons n rest ih =>
    intro d q x
    rw [List.foldl_cons]
    have h1 : seedStep (d, q) n =
        ((seedStep (d, q) n).1, (seedStep (d, q) n).2) := rfl
    rw [h1, seedStep_fst, ih, getD_ensureKey]

theorem seed_foldl_fst_containsKey (names : List String) :
    ∀ d q x, containsKey ((names.foldl seedStep (d, q)).1) x = true ↔
      containsKey d x = true ∨ x ∈ names := by
  induction names with
  | nil => intro d q x; simp
  | cons n rest ih =>
    intro d q x
    rw [List.foldl_cons]
    have h1 : seedStep (d, q) n =
        ((seedStep (d, q) n).1, (seedStep (d, q) n).2) := rfl
    rw [h1, seedStep_fst, ih, containsKey_ensureKey]
    simp [or_assoc]

theorem seed_foldl_snd (names : List String) :
    ∀ d q, (names.foldl seedStep (d, q)).2 =
      q ++ names.filter (fun n => decide (getD d n = 0)) := by
  induction names with
  | nil => intro d q; simp
  | cons n rest ih =>
    intro d q
    rw [List.foldl_cons]
    have h1 : seedStep (d, q) n =
        ((seedStep (d, q) n).1, (seedStep (d, q) n).2) := rfl
    rw [h1, seedStep_fst, seedStep_snd, ih]
    have hcongr : ∀ m ∈ rest,
        (decide (getD (ensureKey d n) m = 0)) = (decide (getD d m = 0)) := by
      intro m _
      rw [getD_ensureKey]
    rw [List.filter_congr hcongr]
    by_cases hz : getD d n = 0
    · rw [if_pos hz]
      simp [List.filter_cons, hz]
    · rw [if_neg hz]
      simp [List.filter_cons, hz]

theorem containsKey_iff_mem_mapFst (d : List (String × Int)) (x : String) :
    containsKey d x = true ↔ x ∈ d.map Prod.fst := by
  induction d with
  | nil => simp [containsKey]
  | cons p rest ih =>
    obtain ⟨k, v⟩ := p
    by_cases hk : k = x
    · simp [containsKey, hk]
    · have hx : x ≠ k := fun e => hk e.symm
      simp [containsKey, hk, ih, hx]

theorem getD_mem {d : List (String × Int)} {x : String}
    (h : containsKey d x = true) : (x, getD d x) ∈ d := by
  induction d with
  | nil => simp [containsKey] at h
  | cons p rest ih =>
    obtain ⟨k, v⟩ := p
    by_cases hk : k = x
    · subst hk
      simp [getD]
    · have h' : containsKey rest x = true := by
        simp only [containsKey, Bool.or_eq_true, decide_eq_true_eq] at h
        rcases h with h | h
        · exact absurd h hk
        · exact h
      rw [show getD ((k, v) :: rest) x = getD rest x by simp [getD, hk]]
      exact List.mem_cons_of_mem _ (ih h')

theorem getD_of_mem_nodup {d : List (String × Int)} {x : String} {v : Int}
    (hnd : (d.map Prod.fst).Nodup) (h : (x, v) ∈ d) : getD d x = v := by
  induction d with
  | nil => simp at h
  | cons p rest ih =>
    obtain ⟨k, w⟩ := p
    simp only [List.map_cons, List.nodup_cons] at hnd
    rcases List.mem_cons.mp h with h | h
    · injection h with h1 h2
      subst h1
      subst h2
      simp [getD]
    · have hk : k ≠ x := by
        intro e
        exact hnd.1 (e ▸ List.mem_map.mpr ⟨(x, v), h, rfl⟩)
      rw [show getD ((k, w) :: rest) x = getD rest x by simp [getD, hk]]
      exact ih hnd.2 h

theorem mapFst_decAt (d : List (String × Int)) (k : String) :
    (decAt d k).map Prod.fst = d.map Prod.fst := by
  induction d with
  | nil => simp [decAt]
  | cons p rest ih =>
    obtain ⟨k', v⟩ := p
    by_cases hk : k' = k <;> simp [decAt, hk, ih]

theorem mapFst_decDeps (deps : List String) :
    ∀ d, ((decDeps d deps).1).map Prod.fst = d.map Prod.fst := by
  induction deps with
  | nil => intro d; simp [decDeps]
  | cons dep rest ih =>
    intro d
    by_cases hc : containsKey d dep
    · rw [decDeps_cons_present rest hc]
      by_cases hz : getD (decAt d dep) dep = 0
      · rw [if_pos hz]
        rw [show (((decDeps (decAt d dep) rest).1,
            dep :: (decDeps (decAt d dep) rest).2)).1 =
          (decDeps (decAt d dep) rest).1 from rfl]
        rw [ih, mapFst_decAt]
      · rw [if_neg hz]
        rw [show (((decDeps (decAt d dep) rest).1,
            (decDeps (decAt d dep) rest).2)).1 =
          (decDeps (decAt d dep) rest).1 from rfl]
        rw [ih, mapFst_decAt]
    · rw [show decDeps d (dep :: rest) = decDeps d rest by
        simp [decDeps, hc]]
      exact ih d

theorem decDeps_snd_subset (deps : List String) :
    ∀ d, ∀ x ∈ (decDeps d deps).2, x ∈ deps := by
  induction deps with
  | nil => intro d x hx; simp [decDeps] at hx
  | cons dep rest ih =>
    intro d x hx
    by_cases hc : containsKey d dep
    · rw [decDeps_cons_present rest hc] at hx
      by_cases hz : getD (decAt d dep) dep = 0
      · rw [if_pos hz] at hx
        rcases List.mem_cons.mp hx with h | h
        · simp [h]
        · exact List.mem_cons_of_mem _ (ih (decAt d dep) x h)
      · rw [if_neg hz] at hx
        exact List.mem_cons_of_mem _ (ih (decAt d dep) x hx)
    · rw [show decDeps d (dep :: rest) = decDeps d rest by
        simp [decDeps, hc]] at hx
      exact List.mem_cons_of_mem _ (ih d x hx)

theorem mapFst_bumpDeg (d : List (String × Int)) (k : String) :
    (bumpDeg d k).map Prod.fst =
      if containsKey d k then d.map Prod.fst else d.map Prod.fst ++ [k] := by
  induction d with
  | nil => simp [bumpDeg, containsKey]
  | cons p rest ih =>
    obtain ⟨k', v⟩ := p
    by_cases hk : k' = k
    · rw [show bumpDeg ((k', v) :: rest) k = (k', v + 1) :: rest by
        simp [bumpDeg, hk]]
      rw [if_pos (by simp [containsKey, hk])]
      simp
    · rw [show bumpDeg ((k', v) :: rest) k = (k', v) :: bumpDeg rest k by
        simp [bumpDeg, hk]]
      have hcc : containsKey ((k', v) :: rest) k = containsKey rest k := by
        simp [containsKey, hk]
      rw [hcc]
      by_cases hc : containsKey rest k
      · rw [if_pos hc]
        rw [if_pos hc] at ih
        simp [ih]
      · rw [if_neg hc]
        rw [if_neg hc] at ih
        simp [ih]

theorem mapFst_bumpDeg_nodup {d : List (String × Int)} (k : String)
    (hnd : (d.map Prod.fst).Nodup) : ((bumpDeg d k).map Prod.fst).Nodup := by
  rw [mapFst_bumpDeg]
  by_cases hc : containsKey d k
  · rw [if_pos hc]
    exact hnd
  · rw [if_neg hc]
    have hk : k ∉ d.map Prod.fst := by
      intro hm
      rw [← containsKey_iff_mem_mapFst] at hm
      exact hc (by rw [hm])
    rw [List.nodup_append]
    refine ⟨hnd, by simp, ?_⟩
    intro a ha
    simp only [List.mem_singleton]
    intro e
    exact hk (e ▸ ha)

theorem mapFst_foldl_bumpDeg_nodup (deps : List String) :
    ∀ d, (d.map Prod.fst).Nodup → ((deps.foldl bumpDeg d).map Prod.fst).Nodup := by
  induction deps with
  | nil => intro d h; exact h
  | cons dep rest ih =>
    intro d h
    rw [List.foldl_cons]
    exact ih _ (mapFst_bumpDeg_nodup dep h)

theorem mapFst_initDegree_nodup (g : Registry) :
    ((initDegree g).map Prod.fst).Nodup := by
  rw [initDegree]
  have h : ∀ d : List (String × Int), (d.map Prod.fst).Nodup →
      ((g.foldl (fun d p => p.2.foldl bumpDeg d) d).map Prod.fst).Nodup := by
    induction g with
    | nil => intro d h; exact h
    | cons p rest ih =>
      intro d h
      rw [List.foldl_cons]
      exact ih _ (mapFst_foldl_bumpDeg_nodup p.2 d h)
  exact h [] (by simp)

theorem mapFst_ensureKey_nodup {d : List (String × Int)} (k : String)
    (hnd : (d.map Prod.fst).Nodup) : ((ensureKey d k).map Prod.fst).Nodup := by
  rw [ensureKey]
  split
  · exact hnd
  · rename_i hc
    have hk : k ∉ d.map Prod.fst := by
      intro hm
      rw [← containsKey_iff_mem_mapFst] at hm
      exact hc (by rw [hm])
    rw [List.map_append, List.nodup_append]
    refine ⟨hnd, by simp, ?_⟩
    intro a ha
    simp only [List.map_cons, List.map_nil, List.mem_singleton]
    intro e
    exact hk (e ▸ ha)

theorem mapFst_seed_nodup (names : List String) :
    ∀ d q, (d.map Prod.fst).Nodup →
      (((names.foldl seedStep (d, q)).1).map Prod.fst).Nodup := by
  induction names with
  | nil => intro d q h; exact h
  | cons n rest ih =>
    intro d q h
    rw [List.foldl_cons]
    have h1 : seedStep (d, q) n =
        ((seedStep (d, q) n).1, (seedStep (d, q) n).2) := rfl
    rw [h1, seedStep_fst]
    exact ih _ _ (mapFst_ensureKey_nodup n h)

/-- Loop invariant of Kahn's algorithm as implemented by `sort`, relating
the degree map, the queue and the emitted order. -/
structure Inv (g : Registry) (d : List (String × Int)) (queue order : List String) : Prop where
  dkeys : (d.map Prod.fst).Nodup
  dom : ∀ x, containsKey d x = true ↔ (x ∈ depsUniv g ∨ x ∈ keys g)
  val : ∀ x, getD d x = (remOcc g order x : Int)
  zeroMem : ∀ x, containsKey d x = true → getD d x = 0 → x ∈ order ∨ x ∈ queue
  nodup : (order ++ queue).Nodup
  orderKeys : ∀ x ∈ order, x ∈ keys g
  queueDom : ∀ x ∈ queue, containsKey d x = true
  oqZero : ∀ x, (x ∈ order ∨ x ∈ queue) → getD d x = 0
  pw : order.Pairwise (fun a b => ¬ DependsOn g b a)
  noSelf : ∀ n ∈ order, ¬ DependsOn g n n

/-- The state entering the main loop of `sort` satisfies the invariant. -/
theorem inv_init (g : Registry) (hk : NodupKeys g) :
    Inv g (seedQueue g (initDegree g)).1 (seedQueue g (initDegree g)).2 [] := by
  have hfst : ∀ x, getD (seedQueue g (initDegree g)).1 x = (remOcc g [] x : Int) := by
    intro x
    rw [seedQueue, seed_foldl_fst_getD, getD_initDegree]
  have hck : ∀ x, containsKey (seedQueue g (initDegree g)).1 x = true ↔
      (x ∈ depsUniv g ∨ x ∈ keys g) := by
    intro x
    rw [seedQueue, seed_foldl_fst_containsKey, containsKey_initDegree]
  have hsnd : (seedQueue g (initDegree g)).2 =
      (keys g).filter (fun n => decide (getD (initDegree g) n = 0)) := by
    rw [seedQueue, seed_foldl_snd]
    simp
  have hdeppos : ∀ x ∈ depsUniv g, 1 ≤ remOcc g [] x := by
    intro x hx
    obtain ⟨p, hp, hxp⟩ := mem_depsUniv.mp hx
    have hc : 0 < p.2.count x := List.count_pos_iff_mem.mpr hxp
    have hmem : (p.1, p.2) ∈ g := by rw [Prod.mk.eta]; exact hp
    have := count_le_remOcc hmem (List.not_mem_nil p.1) x
    omega
  refine ⟨?_, hck, hfst, ?_, ?_, ?_, ?_, ?_, ?_, ?_⟩
  · rw [seedQueue]
    exact mapFst_seed_nodup (keys g) (initDegree g) [] (mapFst_initDegree_nodup g)
  · intro x hcx h0
    rcases (hck x).mp hcx with hx | hx
    · exfalso
      have h1 := hdeppos x hx
      have h2 := hfst x
      rw [h0] at h2
      omega
    · refine Or.inr ?_
      rw [hsnd]
      refine List.mem_filter.mpr ⟨hx, ?_⟩
      have h2 := hfst x
      have h3 : getD (initDegree g) x = (remOcc g [] x : Int) := getD_initDegree g x
      rw [h0] at h2
      simp only [decide_eq_true_eq]
      omega
  · rw [List.nil_append, hsnd]
    exact List.Nodup.filter _ hk
  · intro x hx
    simp at hx
  · intro x hx
    rw [hsnd] at hx
    exact (hck x).mpr (Or.inr (List.mem_of_mem_filter hx))
  · intro x hx
    rcases hx with hx | hx
    · simp at hx
    · rw [hsnd] at hx
      have h1 := List.of_mem_filter hx
      simp only [decide_eq_true_eq] at h1
      have h2 := hfst x
      have h3 : getD (initDegree g) x = (remOcc g [] x : Int) := getD_initDegree g x
      omega
  · simp
  · intro n hn
    simp at hn

/-- One iteration of the main loop preserves the invariant. -/
theorem inv_step {g : Registry} (hk : NodupKeys g) {d : List (String × Int)}
    {queue order : List String} {name : String} {deps : List String}
    (hlk : alookup g name = some deps)
    (hinv : Inv g d (name :: queue) order) :
    Inv g (decDeps d deps).1 (queue ++ (decDeps d deps).2) (order ++ [name]) := by
  have hdomdeps : ∀ y ∈ deps, containsKey d y = true := fun y hy =>
    (hinv.dom y).mpr (Or.inl (mem_depsUniv_of_lookup hlk hy))
  have hgd : ∀ x, getD (decDeps d deps).1 x = getD d x - (deps.count x : Int) :=
    getD_decDeps deps d hdomdeps
  have hcc : ∀ x, containsKey (decDeps d deps).1 x = containsKey d x :=
    containsKey_decDeps deps d
  have hnameq : name ∉ order := by
    have h := hinv.nodup
    rw [List.nodup_append] at h
    exact fun hm => h.2.2 hm (by simp)
  have hremeq : ∀ x, remOcc g order x = remOcc g (order ++ [name]) x + deps.count x :=
    fun x => remOcc_append_emit hk hlk hnameq x
  have hmemg : (name, deps) ∈ g := alookup_mem hlk
  have hcountle : ∀ x, (deps.count x : Int) ≤ getD d x := by
    intro x
    rw [hinv.val x]
    exact_mod_cast count_le_remOcc hmemg hnameq x
  have hr2mem : ∀ x, x ∈ (decDeps d deps).2 ↔
      1 ≤ getD d x ∧ getD d x ≤ (deps.count x : Int) :=
    mem_decDeps_snd deps d hdomdeps
  have hoq0 : ∀ x, (x ∈ order ∨ x = name ∨ x ∈ queue) → getD d x = 0 := by
    intro x hx
    refine hinv.oqZero x ?_
    rcases hx with hx | hx | hx
    · exact Or.inl hx
    · exact Or.inr (by simp [hx])
    · exact Or.inr (List.mem_cons_of_mem _ hx)
  have hr2pos : ∀ x ∈ (decDeps d deps).2, 1 ≤ getD d x := fun x hx =>
    ((hr2mem x).mp hx).1
  refine ⟨?_, ?_, ?_, ?_, ?_, ?_, ?_, ?_, ?_, ?_⟩
  · rw [mapFst_decDeps]
    exact hinv.dkeys
  · intro x
    rw [hcc x]
    exact hinv.dom x
  · intro x
    rw [hgd x, hinv.val x]
    have := hremeq x
    omega
  · intro x hcx h0
    rw [hcc x] at hcx
    rw [hgd x] at h0
    by_cases hcnt : deps.count x = 0
    · have hz : getD d x = 0 := by
        rw [hcnt] at h0
        push_cast at h0
        omega
      rcases hinv.zeroMem x hcx hz with hx | hx
      · exact Or.inl (by simp [hx])
      · rcases List.mem_cons.mp hx with hx | hx
        · exact Or.inl (by simp [hx])
        · exact Or.inr (List.mem_append_left _ hx)
    · refine Or.inr (List.mem_append_right _ ?_)
      refine (hr2mem x).mpr ⟨?_, ?_⟩
      · omega
      · omega
  · have h1 : ((order ++ [name]) ++ queue).Nodup := by
      have := hinv.nodup
      simp only [List.append_assoc, List.singleton_append]
      exact this
    rw [List.nodup_append] at h1
    have r2nd : (decDeps d deps).2.Nodup := nodup_decDeps_snd deps d hdomdeps
    rw [List.nodup_append]
    refine ⟨h1.1, ?_, ?_⟩
    · rw [List.nodup_append]
      refine ⟨h1.2.1, r2nd, ?_⟩
      intro a ha ha2
      have hz : getD d a = 0 := hoq0 a (Or.inr (Or.inr ha))
      have hp := hr2pos a ha2
      omega
    · intro a ha ha2
      rcases List.mem_append.mp ha2 with hq | hr
      · exact h1.2.2 ha hq
      · have hz : getD d a = 0 := by
          rcases List.mem_append.mp ha with hx | hx
          · exact hoq0 a (Or.inl hx)
          · exact hoq0 a (Or.inr (Or.inl (by simpa using hx)))
        have hp := hr2pos a hr
        omega
  · intro x hx
    rcases List.mem_append.mp hx with hx | hx
    · exact hinv.orderKeys x hx
    · rw [show x = name by simpa using hx]
      exact mem_keys_of_alookup hlk
  · intro x hx
    rw [hcc x]
    rcases List.mem_append.mp hx with hx | hx
    · exact hinv.queueDom x (List.mem_cons_of_mem _ hx)
    · exact hdomdeps x (decDeps_snd_subset deps d x hx)
  · intro x hx
    have hx' : (x ∈ order ∨ x = name ∨ x ∈ queue) ∨ x ∈ (decDeps d deps).2 := by
      rcases hx with hx | hx
      · rcases List.mem_append.mp hx with hx | hx
        · exact Or.inl (Or.inl hx)
        · exact Or.inl (Or.inr (Or.inl (by simpa using hx)))
      · rcases List.mem_append.mp hx with hx | hx
        · exact Or.inl (Or.inr (Or.inr hx))
        · exact Or.inr hx
    rw [hgd x]
    rcases hx' with hx' | hx'
    · have hz : getD d x = 0 := hoq0 x hx'
      have hle := hcountle x
      omega
    · have h1 := (hr2mem x).mp hx'
      have hle := hcountle x
      omega
  · rw [List.pairwise_append]
    refine ⟨hinv.pw, by simp, ?_⟩
    intro a ha b hb
    rw [show b = name by simpa using hb]
    intro hdep
    obtain ⟨p, hp, he, hap⟩ := hdep
    have hc : 0 < p.2.count a := List.count_pos_iff_mem.mpr hap
    have hmem : (p.1, p.2) ∈ g := by simpa using hp
    have hle := count_le_remOcc hmem (he ▸ hnameq) a
    have hz : getD d a = 0 := hoq0 a (Or.inl ha)
    have hv := hinv.val a
    omega
  · intro n hn
    rcases List.mem_append.mp hn with hn | hn
    · exact hinv.noSelf n hn
    · rw [show n = name by simpa using hn]
      intro hdep
      obtain ⟨p, hp, he, hap⟩ := hdep
      have hc : 0 < p.2.count name := List.count_pos_iff_mem.mpr hap
      have hmem : (p.1, p.2) ∈ g := by simpa using hp
      have hle := count_le_remOcc hmem (he ▸ hnameq) name
      have hz : getD d name = 0 := hoq0 name (Or.inr (Or.inl rfl))
      have hv := hinv.val name
      omega

theorem kahnLoop_nil (g : Registry) (d : List (String × Int)) (order : List String) :
    kahnLoop g d [] order =
      if d.any (fun p => 0 < p.2) then .error .cycle else .ok order.reverse := by
  rw [kahnLoop]

theorem kahnLoop_cons (g : Registry) (d : List (String × Int))
    (name : String) (rest order : List String) :
    kahnLoop g d (name :: rest) order =
      match alookup g name with
      | none => .error (.missing name)
      | some deps =>
        kahnLoop g (decDeps d deps).1 (rest ++ (decDeps d deps).2) (order ++ [name]) := by
  rw [kahnLoop]

/-- What a successful `sort` guarantees about its output order. -/
structure SortOk (g : Registry) (ord : List String) : Prop where
  keysMem : ∀ n ∈ keys g, n ∈ ord
  memKeys : ∀ n ∈ ord, n ∈ keys g
  nodup : ord.Nodup
  pw : ord.Pairwise (fun a b => ¬ DependsOn g a b)
  noSelf : ∀ n ∈ ord, ¬ DependsOn g n n
  depsMem : ∀ n x, DependsOn g n x → x ∈ ord

/-- On success, the main loop emits every name of the key set and of every
dependency list, without duplicates, dependents before dependencies (hence,
after the final reversal, dependencies first). -/
theorem kahnLoop_ok_spec (g : Registry) (hk : NodupKeys g) :
    ∀ d queue order, Inv g d queue order →
      ∀ ord, kahnLoop g d queue order = Except.ok ord → SortOk g ord := by
  intro d queue order
  induction d, queue, order using kahnLoop.induct g with
  | case1 d order hpos =>
    intro hinv ord he
    rw [kahnLoop_nil, if_pos hpos] at he
    cases he
  | case2 d order hpos =>
    intro hinv ord he
    rw [kahnLoop_nil, if_neg hpos] at he
    injection he with he
    subst he
    have hle : ∀ x, containsKey d x = true → getD d x ≤ 0 := by
      intro x hcx
      have hmem := getD_mem hcx
      simp only [List.any_eq_true, not_exists, not_and] at hpos
      have := hpos _ hmem
      simp at this
      exact this
    have hzero : ∀ x, containsKey d x = true → x ∈ order := by
      intro x hcx
      have h1 := hle x hcx
      have h2 := hinv.val x
      have h3 : getD d x = 0 := by omega
      rcases hinv.zeroMem x hcx h3 with hx | hx
      · exact hx
      · simp at hx
    refine ⟨?_, ?_, ?_, ?_, ?_, ?_⟩
    · intro n hn
      rw [List.mem_reverse]
      exact hzero n ((hinv.dom n).mpr (Or.inr hn))
    · intro n hn
      rw [List.mem_reverse] at hn
      exact hinv.orderKeys n hn
    · rw [List.nodup_reverse]
      have := hinv.nodup
      simpa using this
    · rw [List.pairwise_reverse]
      exact hinv.pw
    · intro n hn
      rw [List.mem_reverse] at hn
      exact hinv.noSelf n hn
    · intro n x hdep
      rw [List.mem_reverse]
      obtain ⟨p, hp, he', hx⟩ := hdep
      have hdu : x ∈ depsUniv g := mem_depsUniv.mpr ⟨p, hp, hx⟩
      exact hzero x ((hinv.dom x).mpr (Or.inl hdu))
  | case3 d order name rest hlk =>
    intro hinv ord he
    rw [kahnLoop_cons, hlk] at he
    cases he
  | case4 d order name rest deps hlk r ih =>
    intro hinv ord he
    rw [kahnLoop_cons, hlk] at he
    exact ih (inv_step hk hlk hinv) ord he

/-- Under an acyclic dependency graph the loop cannot end in the cycle
error. -/
theorem kahnLoop_no_cycle_err (g : Registry) (hk : NodupKeys g)
    (hacyc : Acyclic g) :
    ∀ d queue order, Inv g d queue order →
      kahnLoop g d queue order ≠ Except.error GErr.cycle := by
  intro d queue order
  induction d, queue, order using kahnLoop.induct g with
  | case1 d order hpos =>
    intro hinv he
    simp only [List.any_eq_true, decide_eq_true_eq] at hpos
    obtain ⟨p, hp, hv⟩ := hpos
    classical
    have hgd : getD d p.1 = p.2 := getD_of_mem_nodup hinv.dkeys (by
      rw [Prod.mk.eta]; exact hp)
    have hrem : 0 < remOcc g order p.1 := by
      have := hinv.val p.1
      omega
    obtain ⟨n0, hn0o, hn0k, hn0d⟩ := remOcc_pos_dependent hrem
    set S : Finset String :=
      (keys g).toFinset.filter (fun m => m ∉ order) with hS
    have hmemS : ∀ m, m ∈ S ↔ (m ∈ keys g ∧ m ∉ order) := by
      intro m
      rw [hS, Finset.mem_filter, List.mem_toFinset]
    have hne : S.Nonempty := ⟨n0, (hmemS n0).mpr ⟨hn0k, hn0o⟩⟩
    have hsucc : ∀ m ∈ S, ∃ m2 ∈ S, DependsOn g m2 m := by
      intro m hm
      obtain ⟨hmk, hmo⟩ := (hmemS m).mp hm
      have hcm : containsKey d m = true := (hinv.dom m).mpr (Or.inr hmk)
      have hnz : getD d m ≠ 0 := by
        intro h0
        rcases hinv.zeroMem m hcm h0 with hx | hx
        · exact hmo hx
        · simp at hx
      have hrm : 0 < remOcc g order m := by
        have := hinv.val m
        omega
      obtain ⟨m2, hm2o, hm2k, hm2d⟩ := remOcc_pos_dependent hrm
      exact ⟨m2, (hmemS m2).mpr ⟨hm2k, hm2o⟩, hm2d⟩
    obtain ⟨z, hz⟩ := exists_transGen_cycle S hne hsucc
    exact hacyc z hz
  | case2 d order hpos =>
    intro hinv he
    rw [kahnLoop_nil, if_neg hpos] at he
    cases he
  | case3 d order name rest hlk =>
    intro hinv he
    rw [kahnLoop_cons, hlk] at he
    cases he
  | case4 d order name rest deps hlk r ih =>
    intro hinv he
    rw [kahnLoop_cons, hlk] at he
    exact ih (inv_step hk hlk hinv) he

/-- A missing-entry error names a key that is absent from the registry but
present in the degree map. -/
theorem kahnLoop_missing_inv (g : Registry) (hk : NodupKeys g) :
    ∀ d queue order, Inv g d queue order → ∀ m,
      kahnLoop g d queue order = Except.error (GErr.missing m) →
      containsKey d m = true ∧ alookup g m = none := by
  intro d queue order
  induction d, queue, order using kahnLoop.induct g with
  | case1 d order hpos =>
    intro hinv m he
    rw [kahnLoop_nil, if_pos hpos] at he
    cases he
  | case2 d order hpos =>
    intro hinv m he
    rw [kahnLoop_nil, if_neg hpos] at he
    cases he
  | case3 d order name rest hlk =>
    intro hinv m he
    rw [kahnLoop_cons, hlk] at he
    injection he with he
    injection he with he
    subst he
    exact ⟨hinv.queueDom name (by simp), hlk⟩
  | case4 d order name rest deps hlk r ih =>
    intro hinv m he
    rw [kahnLoop_cons, hlk] at he
    have h := ih (inv_step hk hlk hinv) m he
    rw [containsKey_decDeps] at h
    exact h

/-- The loop produces only the cycle and missing-entry errors. -/
theorem kahnLoop_err_shape (g : Registry) :
    ∀ d queue order e, kahnLoop g d queue order = Except.error e →
      e = GErr.cycle ∨ ∃ m, e = GErr.missing m := by
  intro d queue order
  induction d, queue, order using kahnLoop.induct g with
  | case1 d order hpos =>
    intro e he
    rw [kahnLoop_nil, if_pos hpos] at he
    injection he with he
    exact Or.inl he.symm
  | case2 d order hpos =>
    intro e he
    rw [kahnLoop_nil, if_neg hpos] at he
    cases he
  | case3 d order name rest hlk =>
    intro e he
    rw [kahnLoop_cons, hlk] at he
    injection he with he
    exact Or.inr ⟨name, he.symm⟩
  | case4 d order name rest deps hlk r ih =>
    intro e he
    rw [kahnLoop_cons, hlk] at he
    exact ih e he

/-- A Nodup list that is closed under an irreflexive relation `r` and whose
order refutes `r` pairwise admits no `r`-cycle. -/
theorem no_cycle_of_list {r : String → String → Prop} (l : List String)
    (hnd : l.Nodup) (hp : l.Pairwise fun a b => ¬ r a b)
    (hmem : ∀ a b, r a b → a ∈ l ∧ b ∈ l) (hself : ∀ a ∈ l, ¬ r a a) :
    ∀ z, ¬ Relation.TransGen r z z := by
  have hstep : ∀ a b, r a b → natIdx l b < natIdx l a := by
    intro a b hab
    obtain ⟨ha, hb⟩ := hmem a b hab
    have hne : a ≠ b := by
      intro e
      exact hself a ha (e ▸ hab)
    rcases before_trichotomy ha hb hne with h | h
    · exact absurd hab (rel_of_pairwise_before hp h)
    · exact natIdx_lt_of_before hnd h
  intro z hz
  exact absurd (transGen_lt hstep hz) (lt_irrefl _)

theorem sort_eq_kahnLoop (g : Registry) :
    sort g = kahnLoop g (seedQueue g (initDegree g)).1
      (seedQueue g (initDegree g)).2 [] := rfl

/-- Success properties of `Graceful.sort`. -/
theorem sort_ok_spec {g : Registry} (hk : NodupKeys g) {ord : List String}
    (h : sort g = Except.ok ord) : SortOk g ord :=
  kahnLoop_ok_spec g hk _ _ _ (inv_init g hk) ord (sort_eq_kahnLoop g ▸ h)

/-- An acyclic registry never produces the cycle error. -/
theorem sort_no_cycle {g : Registry} (hk : NodupKeys g) (hacyc : Acyclic g) :
    sort g ≠ Except.error GErr.cycle := fun h =>
  kahnLoop_no_cycle_err g hk hacyc _ _ _ (inv_init g hk)
    (sort_eq_kahnLoop g ▸ h)

/-- A missing-entry error from `sort` names an unregistered dependency. -/
theorem sort_missing {g : Registry} (hk : NodupKeys g) {m : String}
    (h : sort g = Except.error (GErr.missing m)) :
    m ∈ depsUniv g ∧ m ∉ keys g := by
  obtain ⟨hck, hnone⟩ :=
    kahnLoop_missing_inv g hk _ _ _ (inv_init g hk) m (sort_eq_kahnLoop g ▸ h)
  have hdom : m ∈ depsUniv g ∨ m ∈ keys g := by
    have := seed_foldl_fst_containsKey (keys g) (initDegree g) [] m
    rw [seedQueue] at hck
    rcases (this.mp hck) with h1 | h1
    · exact Or.inl ((containsKey_initDegree g m).mp h1)
    · exact Or.inr h1
  have hnk : m ∉ keys g := alookup_eq_none_iff.mp hnone
  rcases hdom with h1 | h1
  · exact ⟨h1, hnk⟩
  · exact absurd h1 hnk

/-- `sort` produces only the cycle and missing-entry errors. -/
theorem sort_err_shape {g : Registry} {e : GErr}
    (h : sort g = Except.error e) :
    e = GErr.cycle ∨ ∃ m, e = GErr.missing m :=
  kahnLoop_err_shape g _ _ _ e (sort_eq_kahnLoop g ▸ h)

/-- A successful sort certifies acyclicity of the dependency graph. -/
theorem sortOk_acyclic {g : Registry} {ord : List String}
    (hok : SortOk g ord) : Acyclic g := by
  intro z
  refine no_cycle_of_list ord hok.nodup hok.pw ?_ hok.noSelf z
  intro a b hab
  obtain ⟨p, hp, he, hb⟩ := hab
  have ha : a ∈ keys g := by
    rw [← he]
    exact List.mem_map.mpr ⟨p, hp, rfl⟩
  exact ⟨hok.keysMem a ha, hok.depsMem a b ⟨p, hp, he, hb⟩⟩

/-- With an acyclic, fully registered dependency graph, `sort` succeeds. -/
theorem sort_complete (g : Registry) (hk : NodupKeys g)
    (hfull : ∀ p ∈ g, ∀ x ∈ p.2, x ∈ keys g) (hacyc : Acyclic g) :
    ∃ ord, sort g = Except.ok ord := by
  cases hres : sort g with
  | ok ord => exact ⟨ord, rfl⟩
  | error e =>
    exfalso
    rcases sort_err_shape hres with he | ⟨m, he⟩
    · subst he
      exact sort_no_cycle hk hacyc hres
    · subst he
      obtain ⟨hdu, hnk⟩ := sort_missing hk hres
      obtain ⟨p, hp, hm⟩ := mem_depsUniv.mp hdu
      exact hnk (hfull p hp m hm)

/-- A cyclic registry makes `sort` fail. -/
theorem sort_cycle_fails (g : Registry) (hk : NodupKeys g)
    (hcyc : ∃ z, Relation.TransGen (DependsOn g) z z) :
    ∃ e, sort g = Except.error e := by
  cases hres : sort g with
  | ok ord =>
    exfalso
    obtain ⟨z, hz⟩ := hcyc
    exact sortOk_acyclic (sort_ok_spec hk hres) z hz
  | error e => exact ⟨e, rfl⟩

/-- In a successful sort order, every dependency strictly precedes its
dependent. -/
theorem sortOk_before {g : Registry} {ord : List String} (hok : SortOk g ord)
    {n x : String} (hdep : DependsOn g n x) (hn : n ∈ ord) :
    Before ord x n := by
  have hx : x ∈ ord := hok.depsMem n x hdep
  have hne : x ≠ n := fun e => hok.noSelf n hn (e ▸ hdep)
  rcases before_trichotomy hx hn hne with h | h
  · exact h
  · exact absurd hdep (rel_of_pairwise_before hok.pw h)


/-! ## `Start` loop lemmas -/

theorem startLoop_skip (g : Registry) :
    ∀ names od ord s l, (∀ n ∈ names, n ∈ keys g) → (∀ n ∈ names, n ∈ od) →
      startLoop names ⟨g, od, ord⟩ s l = .ok ⟨g, od, ord⟩ l := by
  intro names
  induction names with
  | nil => intro od ord s l _ _; rfl
  | cons n rest ih =>
    intro od ord s l hkeys hdone
    obtain ⟨deps, hlk⟩ := alookup_isSome_of_mem_keys (hkeys n (by simp))
    rw [startLoop]
    simp only [hlk]
    rw [if_pos (hdone n (by simp))]
    exact ih od ord s l (fun m hm => hkeys m (by simp [hm]))
      (fun m hm => hdone m (by simp [hm]))

theorem startLoop_run (g : Registry) :
    ∀ suf pre od ord l,
      (pre ++ suf).Nodup →
      (∀ n ∈ suf, n ∈ keys g) →
      (∀ n ∈ suf, n ∉ od) →
      (∀ n ∈ suf, ∀ x, DependsOn g n x → Before (pre ++ suf) x n) →
      startLoop suf ⟨g, od, ord⟩ pre l =
        .ok ⟨g, od ++ suf, ord ++ suf⟩ (l ++ suf) := by
  intro suf
  induction suf with
  | nil => intro pre od ord l _ _ _ _; simp [startLoop]
  | cons n rest ih =>
    intro pre od ord l hnd hkeys hnew hdep
    obtain ⟨deps, hlk⟩ := alookup_isSome_of_mem_keys (hkeys n (by simp))
    rw [startLoop]
    simp only [hlk]
    rw [if_neg (hnew n (by simp))]
    have hpre : ∀ dep ∈ deps, dep ∈ pre := by
      intro dep hdp
      have hd : DependsOn g n dep := dependsOn_of_lookup hlk hdp
      have hb : Before (pre ++ n :: rest) dep n := hdep n (by simp) dep hd
      have hlt := natIdx_lt_of_before hnd hb
      have hnle : natIdx (pre ++ n :: rest) n ≤ pre.length :=
        natIdx_append_cons_le pre rest n
      exact mem_take_of_natIdx_lt (mem_left_of_before hb) (by omega)
    have hall : deps.all (fun dep => pre.contains dep) = true := by
      rw [List.all_eq_true]
      intro dep hdp
      rw [List.contains_iff_exists_mem_beq]
      exact ⟨dep, hpre dep hdp, by simp⟩
    rw [if_pos hall]
    have hnd' : ((pre ++ [n]) ++ rest).Nodup := by
      simpa using hnd
    have hres := ih (pre ++ [n]) (od ++ [n]) (ord ++ [n]) (l ++ [n]) hnd'
      (fun m hm => hkeys m (by simp [hm]))
      (fun m hm hmem => by
        rcases List.mem_append.mp hmem with h1 | h1
        · exact hnew m (by simp [hm]) h1
        · have hmn : m = n := by simpa using h1
          subst hmn
          have := hnd
          rw [List.nodup_append] at this
          have h2 := this.2.1
          rw [List.nodup_cons] at h2
          exact h2.1 hm)
      (fun m hm x hx => by
        have := hdep m (by simp [hm]) x hx
        simpa using this)
    rw [hres]
    simp

theorem start_err {g : Registry} (od ord0 : List String) {e : GErr}
    (h : sort g = Except.error e) :
    start ⟨g, od, ord0⟩ = .err e [] := by
  rw [start]
  simp only [h]

/-- With unique keys, full registration and an acyclic graph, `Start` on a
fresh instance launches exactly the sorted order and records it in
`g.order`, and that order is a valid topological order. -/
theorem start_ok (g : Registry) (hk : NodupKeys g)
    (hfull : ∀ p ∈ g, ∀ x ∈ p.2, x ∈ keys g) (hacyc : Acyclic g) :
    ∃ ord, sort g = Except.ok ord ∧
      start ⟨g, [], []⟩ = .ok ⟨g, ord, ord⟩ ord ∧ SortOk g ord := by
  obtain ⟨ord, hs⟩ := sort_complete g hk hfull hacyc
  have hok := sort_ok_spec hk hs
  refine ⟨ord, hs, ?_, hok⟩
  rw [start]
  simp only [hs]
  have hrun := startLoop_run g ord [] [] [] []
    (by simpa using hok.nodup) hok.memKeys (by simp)
    (fun n hn x hx => by
      have := sortOk_before hok hx hn
      simpa using this)
  simpa using hrun

/-- A second `Start` call on the same instance relaunches nothing: every
`once` guard is already spent. -/
theorem start_again (g : Registry) {ord : List String}
    (hs : sort g = Except.ok ord) (hkeys : ∀ n ∈ ord, n ∈ keys g) :
    start ⟨g, ord, ord⟩ = .ok ⟨g, ord, ord⟩ [] := by
  rw [start]
  simp only [hs]
  exact startLoop_skip g ord ord ord [] [] hkeys (fun n hn => hn)

/-! ## `Stop` lemmas -/

theorem stopLaunches_eq {st : GState}
    (h : ∀ n ∈ st.order, n ∈ keys st.svcs) :
    stopLaunches st = st.order.reverse := by
  rw [stopLaunches]
  rw [List.filter_eq_self]
  intro n hn
  rw [List.mem_reverse] at hn
  obtain ⟨deps, hlk⟩ := alookup_isSome_of_mem_keys (h n hn)
  simp [hlk]

theorem stopResult_no_failure {st : GState} {stopErr : String → Bool}
    (h : ∀ n ∈ stopLaunches st, stopErr n = false) :
    stopResult st stopErr [] = some none := by
  rw [stopResult]
  have hneg : ¬ (stopLaunches st).any stopErr = true := by
    rw [List.any_eq_true]
    rintro ⟨n, hn, he⟩
    rw [h n hn] at he
    cases he
  rw [if_neg hneg]

/-! ## Trace-position lemmas -/

theorem spawnsOf_split :
    ∀ {t : List Ev} {l1 l2 : List String} {a : String},
      spawnsOf t = l1 ++ a :: l2 →
      ∃ t1 t2, t = t1 ++ Ev.spawned a :: t2 ∧
        spawnsOf t1 = l1 ∧ spawnsOf t2 = l2 := by
  intro t
  induction t with
  | nil =>
    intro l1 l2 a h
    rw [show spawnsOf [] = [] from rfl] at h
    exact absurd h.symm (List.append_ne_nil_of_right_ne_nil l1 (by simp))
  | cons e t' ih =>
    intro l1 l2 a h
    cases e with
    | spawned n =>
      rw [show spawnsOf (Ev.spawned n :: t') = n :: spawnsOf t' from rfl] at h
      cases l1 with
      | nil =>
        injection h with h1 h2
        subst h1
        exact ⟨[], t', by simp, rfl, h2⟩
      | cons b l1' =>
        rw [List.cons_append] at h
        injection h with h1 h2
        subst h1
        obtain ⟨t1, t2, he, hs1, hs2⟩ := ih h2
        exact ⟨Ev.spawned n :: t1, t2, by simp [he],
          by rw [show spawnsOf (Ev.spawned n :: t1) = n :: spawnsOf t1 from rfl, hs1],
          hs2⟩
    | began n =>
      rw [show spawnsOf (Ev.began n :: t') = spawnsOf t' from rfl] at h
      obtain ⟨t1, t2, he, hs1, hs2⟩ := ih h
      exact ⟨Ev.began n :: t1, t2, by simp [he],
        by rw [show spawnsOf (Ev.began n :: t1) = spawnsOf t1 from rfl, hs1], hs2⟩
    | ended n =>
      rw [show spawnsOf (Ev.ended n :: t') = spawnsOf t' from rfl] at h
      obtain ⟨t1, t2, he, hs1, hs2⟩ := ih h
      exact ⟨Ev.ended n :: t1, t2, by simp [he],
        by rw [show spawnsOf (Ev.ended n :: t1) = spawnsOf t1 from rfl, hs1], hs2⟩

/-- Launch order transfers to spawn order in every admissible trace. -/
theorem before_spawn {t : List Ev} {L : List String} {a b : String}
    (h : spawnsOf t = L) (hb : Before L a b) :
    Before t (Ev.spawned a) (Ev.spawned b) := by
  obtain ⟨l1, l2, l3, he⟩ := hb
  subst he
  have h' : spawnsOf t = l1 ++ a :: (l2 ++ b :: l3) := by
    rw [h]
    simp
  obtain ⟨t1, t2, he1, hs1, hs2⟩ := spawnsOf_split h'
  obtain ⟨t3, t4, he2, hs3, hs4⟩ := spawnsOf_split hs2
  refine ⟨t1, t3, t4, ?_⟩
  rw [he1, he2]
  simp

/-! ## Acyclicity of small concrete registries -/

theorem acyclic_pair_ab : Acyclic [("a", []), ("b", ["a"])] := by
  refine acyclic_of_rank _ (fun s => if s = "b" then 1 else 0) ?_
  rintro n x ⟨p, hp, he, hx⟩
  rcases List.mem_cons.mp hp with h | h
  · rw [h] at hx
    simp at hx
  · rcases List.mem_cons.mp h with h | h
    · rw [h] at he hx
      simp at he hx
      subst he
      subst hx
      simp
    · simp at h

theorem acyclic_single_x : Acyclic [("x", [])] := by
  refine acyclic_of_rank _ (fun _ => 0) ?_
  rintro n x ⟨p, hp, he, hx⟩
  rcases List.mem_cons.mp hp with h | h
  · rw [h] at hx
    simp at hx
  · simp at h

theorem acyclic_chain_abc : Acyclic [("a", []), ("b", ["a"]), ("c", ["b"])] := by
  refine acyclic_of_rank _
    (fun s => if s = "c" then 2 else if s = "b" then 1 else 0) ?_
  rintro n x ⟨p, hp, he, hx⟩
  rcases List.mem_cons.mp hp with h | h
  · rw [h] at hx
    simp at hx
  · rcases List.mem_cons.mp h with h | h
    · rw [h] at he hx
      simp at he hx
      subst he
      subst hx
      simp
    · rcases List.mem_cons.mp h with h | h
      · rw [h] at he hx
        simp at he hx
        subst he
        subst hx
        simp
      · simp at h

/-! ## Claim theorems -/

/-- C1: For every registry whose dependency graph is acyclic and in which
every listed dependency is itself registered, `sort` returns an order that
contains every registered service exactly once and in which each service
appears only after all of its dependencies. -/
theorem claim_C1_sort_topological (g : Registry) (hk : NodupKeys g)
    (hfull : ∀ p ∈ g, ∀ x ∈ p.2, x ∈ keys g) (hacyc : Acyclic g) :
    ∃ ord, sort g = Except.ok ord ∧
      (∀ n, n ∈ ord ↔ n ∈ keys g) ∧
      (∀ n ∈ keys g, ord.count n = 1) ∧
      (∀ n x, DependsOn g n x → Before ord x n) := by
  obtain ⟨ord, hs⟩ := sort_complete g hk hfull hacyc
  have hok := sort_ok_spec hk hs
  refine ⟨ord, hs, fun n => ⟨hok.memKeys n, hok.keysMem n⟩, ?_, ?_⟩
  · intro n hn
    exact List.count_eq_one_of_mem hok.nodup (hok.keysMem n hn)
  · intro n x hdep
    obtain ⟨p, hp, he, hx⟩ := hdep
    have hn : n ∈ keys g := by
      rw [← he]
      exact List.mem_map.mpr ⟨p, hp, rfl⟩
    exact sortOk_before hok ⟨p, hp, he, hx⟩ (hok.keysMem n hn)

theorem claim_C1_witness :
    (NodupKeys [("a", []), ("b", ["a"])] ∧
      Acyclic [("a", []), ("b", ["a"])]) ∧
    (∃ ord, sort [("a", []), ("b", ["a"])] = Except.ok ord ∧
      (∀ n, n ∈ ord ↔ n ∈ keys [("a", []), ("b", ["a"])]) ∧
      (∀ n ∈ keys [("a", []), ("b", ["a"])], ord.count n = 1) ∧
      (∀ n x, DependsOn [("a", []), ("b", ["a"])] n x → Before ord x n)) :=
  ⟨⟨by decide, acyclic_pair_ab⟩,
    claim_C1_sort_topological [("a", []), ("b", ["a"])] (by decide)
      (by decide) acyclic_pair_ab⟩

/-- C3: For every registry whose dependency graph contains a cycle, `Start`
returns a non-nil structural error synchronously and launches no service's
start operation (the returned launch list is empty). -/
theorem claim_C3_cycle_start_error (g : Registry) (od ord0 : List String)
    (hk : NodupKeys g)
    (hcyc : ∃ z, Relation.TransGen (DependsOn g) z z) :
    ∃ e, start ⟨g, od, ord0⟩ = .err e [] := by
  obtain ⟨e, he⟩ := sort_cycle_fails g hk hcyc
  exact ⟨e, start_err od ord0 he⟩

theorem claim_C3_witness :
    (NodupKeys [("a", ["b"]), ("b", ["a"])] ∧
      (∃ z, Relation.TransGen (DependsOn [("a", ["b"]), ("b", ["a"])]) z z)) ∧
    (∃ e, start ⟨[("a", ["b"]), ("b", ["a"])], [], []⟩ = .err e []) := by
  have h1 : DependsOn [("a", ["b"]), ("b", ["a"])] "a" "b" :=
    ⟨("a", ["b"]), by simp, rfl, by simp⟩
  have h2 : DependsOn [("a", ["b"]), ("b", ["a"])] "b" "a" :=
    ⟨("b", ["a"]), by simp, rfl, by simp⟩
  have hcyc : ∃ z, Relation.TransGen
      (DependsOn [("a", ["b"]), ("b", ["a"])]) z z :=
    ⟨"a", Relation.TransGen.head h1 (Relation.TransGen.single h2)⟩
  exact ⟨⟨by decide, hcyc⟩,
    claim_C3_cycle_start_error [("a", ["b"]), ("b", ["a"])] [] [] (by decide) hcyc⟩

/-- C5: On a fresh instance with an acyclic, fully registered graph,
`Start` launches each registered service exactly once, and a second `Start`
launches nothing further (each definition's `once` guard is spent). -/
theorem claim_C5_start_once (g : Registry) (hk : NodupKeys g)
    (hfull : ∀ p ∈ g, ∀ x ∈ p.2, x ∈ keys g) (hacyc : Acyclic g) :
    ∃ ord, start ⟨g, [], []⟩ = .ok ⟨g, ord, ord⟩ ord ∧
      (∀ n, n ∈ ord ↔ n ∈ keys g) ∧
      (∀ n ∈ keys g, ord.count n = 1) ∧
      start ⟨g, ord, ord⟩ = .ok ⟨g, ord, ord⟩ [] := by
  obtain ⟨ord, hs, hst, hok⟩ := start_ok g hk hfull hacyc
  refine ⟨ord, hst, fun n => ⟨hok.memKeys n, hok.keysMem n⟩, ?_, ?_⟩
  · intro n hn
    exact List.count_eq_one_of_mem hok.nodup (hok.keysMem n hn)
  · exact start_again g hs hok.memKeys

theorem claim_C5_witness :
    (NodupKeys [("a", []), ("b", ["a"])] ∧
      Acyclic [("a", []), ("b", ["a"])]) ∧
    (∃ ord, start ⟨[("a", []), ("b", ["a"])], [], []⟩ =
        .ok ⟨[("a", []), ("b", ["a"])], ord, ord⟩ ord ∧
      (∀ n, n ∈ ord ↔ n ∈ keys [("a", []), ("b", ["a"])]) ∧
      (∀ n ∈ keys [("a", []), ("b", ["a"])], ord.count n = 1) ∧
      start ⟨[("a", []), ("b", ["a"])], ord, ord⟩ =
        .ok ⟨[("a", []), ("b", ["a"])], ord, ord⟩ []) :=
  ⟨⟨by decide, acyclic_pair_ab⟩,
    claim_C5_start_once [("a", []), ("b", ["a"])] (by decide)
      (by decide) acyclic_pair_ab⟩

/-- C6: After a successful `Start`, `Stop` launches the stop operation of
every service in the started-order sequence exactly once, iterating that
sequence in exact reverse of the order in which the starts were
initiated. -/
theorem claim_C6_stop_reverse (g : Registry) (hk : NodupKeys g)
    (hfull : ∀ p ∈ g, ∀ x ∈ p.2, x ∈ keys g) (hacyc : Acyclic g) :
    ∃ ord, start ⟨g, [], []⟩ = .ok ⟨g, ord, ord⟩ ord ∧
      stopLaunches ⟨g, ord, ord⟩ = ord.reverse ∧
      (∀ n ∈ ord, (stopLaunches ⟨g, ord, ord⟩).count n = 1) := by
  obtain ⟨ord, hs, hst, hok⟩ := start_ok g hk hfull hacyc
  have hsl : stopLaunches ⟨g, ord, ord⟩ = ord.reverse :=
    stopLaunches_eq (fun n hn => hok.memKeys n hn)
  refine ⟨ord, hst, hsl, ?_⟩
  intro n hn
  rw [hsl]
  exact List.count_eq_one_of_mem (by rw [List.nodup_reverse]; exact hok.nodup)
    (by rw [List.mem_reverse]; exact hn)

theorem claim_C6_witness :
    (NodupKeys [("a", []), ("b", ["a"]), ("c", ["b"])] ∧
      Acyclic [("a", []), ("b", ["a"]), ("c", ["b"])]) ∧
    stopLaunches ⟨[("a", []), ("b", ["a"]), ("c", ["b"])],
      ["a", "b", "c"], ["a", "b", "c"]⟩ = ["c", "b", "a"] ∧
    (∃ ord, start ⟨[("a", []), ("b", ["a"]), ("c", ["b"])], [], []⟩ =
        .ok ⟨[("a", []), ("b", ["a"]), ("c", ["b"])], ord, ord⟩ ord ∧
      stopLaunches ⟨[("a", []), ("b", ["a"]), ("c", ["b"])], ord, ord⟩ =
        ord.reverse ∧
      (∀ n ∈ ord,
        (stopLaunches ⟨[("a", []), ("b", ["a"]), ("c", ["b"])], ord, ord⟩).count n
          = 1)) :=
  ⟨⟨by decide, acyclic_chain_abc⟩, by decide,
    claim_C6_stop_reverse [("a", []), ("b", ["a"]), ("c", ["b"])] (by decide)
      (by decide) acyclic_chain_abc⟩

/-- C7: code bug.  A started service whose stop operation fails sends on
the unbuffered `g.cherr` before its deferred `wg.Done` can run; the only
receive happens after `wg.Wait`, so `Stop` deadlocks (`none`) instead of
returning the error: the claimed drain-after-join protocol cannot unblock
the producer. -/
theorem claim_C7_stop_deadlock :
    stopLaunches ⟨[("a", [])], ["a"], ["a"]⟩ = ["a"] ∧
    stopResult ⟨[("a", [])], ["a"], ["a"]⟩ (fun _ => true) [] = none := by
  constructor
  · rfl
  · rfl

/-- C9: Calling `Stop` before any successful `Start` (empty started-order
sequence, nil error channel) launches no stop operation and returns nil. -/
theorem claim_C9_stop_before_start (g : Registry) (od : List String)
    (stopErr : String → Bool) :
    stopLaunches ⟨g, od, []⟩ = [] ∧
    stopResult ⟨g, od, []⟩ stopErr [] = some none := by
  constructor
  · rfl
  · rfl

/-- C10: If some registered service lists an unregistered dependency and
the registered services form no cycle, `sort` fails with the
missing-entry structural error and `Start` returns it synchronously,
launching nothing. -/
theorem claim_C10_missing_dep_error (g : Registry) (od ord0 : List String)
    (hk : NodupKeys g) (hacyc : Acyclic g)
    (hmiss : ∃ p ∈ g, ∃ x ∈ p.2, x ∉ keys g) :
    ∃ m, m ∉ keys g ∧ sort g = Except.error (GErr.missing m) ∧
      start ⟨g, od, ord0⟩ = .err (GErr.missing m) [] := by
  cases hres : sort g with
  | ok ord =>
    exfalso
    obtain ⟨p, hp, x, hx, hnk⟩ := hmiss
    have hok := sort_ok_spec hk hres
    exact hnk (hok.memKeys x (hok.depsMem p.1 x ⟨p, hp, rfl, hx⟩))
  | error e =>
    rcases sort_err_shape hres with he | ⟨m, he⟩
    · subst he
      exact absurd hres (sort_no_cycle hk hacyc)
    · subst he
      obtain ⟨hdu, hnk⟩ := sort_missing hk hres
      exact ⟨m, hnk, rfl, start_err od ord0 hres⟩

theorem claim_C10_witness :
    (NodupKeys [("b", ["a"])] ∧ Acyclic [("b", ["a"])] ∧
      (∃ p ∈ [("b", ["a"])], ∃ x ∈ p.2, x ∉ keys [("b", ["a"])])) ∧
    (∃ m, m ∉ keys [("b", ["a"])] ∧
      sort [("b", ["a"])] = Except.error (GErr.missing m) ∧
      start ⟨[("b", ["a"])], [], []⟩ = .err (GErr.missing m) []) := by
  have hacyc : Acyclic [("b", ["a"])] := by
    refine acyclic_of_rank _ (fun s => if s = "b" then 1 else 0) ?_
    rintro n x ⟨p, hp, he, hx⟩
    rcases List.mem_cons.mp hp with h | h
    · rw [h] at he hx
      simp at he hx
      subst he
      subst hx
      simp
    · simp at h
  exact ⟨⟨by decide, hacyc, by decide⟩,
    claim_C10_missing_dep_error [("b", ["a"])] [] [] (by decide) hacyc
      (by decide)⟩

/-- C2 as stated is false on the code: the `started` mark that dependents
wait for (line 256) is set right after the start goroutine is launched
(line 249), not after the start operation completes, so a dependent's start
body may run before its dependency's start body has finished.  The trace
below is admissible for the launch order the code produces on the registry
`a ← b`, yet b's start body begins (and even ends) before a's start body
runs. -/
theorem claim_C2_counterexample :
    DependsOn [("a", []), ("b", ["a"])] "b" "a" ∧
    start ⟨[("a", []), ("b", ["a"])], [], []⟩ =
      .ok ⟨[("a", []), ("b", ["a"])], ["a", "b"], ["a", "b"]⟩ ["a", "b"] ∧
    Admissible ["a", "b"]
      [Ev.spawned "a", Ev.spawned "b", Ev.began "b", Ev.ended "b",
        Ev.began "a", Ev.ended "a"] ∧
    ¬ Before
      [Ev.spawned "a", Ev.spawned "b", Ev.began "b", Ev.ended "b",
        Ev.began "a", Ev.ended "a"]
      (Ev.ended "a") (Ev.began "b") := by
  refine ⟨⟨("b", ["a"]), by simp, rfl, by simp⟩, ?_, ⟨rfl, ?_, ?_, ?_⟩, ?_⟩
  · simp [start, sort, initDegree, seedQueue, seedStep, keys, ensureKey,
      containsKey, getD, bumpDeg, kahnLoop, alookup, decDeps, decAt, startLoop]
  · intro n hn
    simp only [List.mem_cons, List.not_mem_nil, or_false] at hn
    have hn' : n = "b" ∨ n = "a" := by
      rcases hn with h | h | h | h | h | h
      · cases h
      · cases h
      · injection h with h
        exact Or.inl h
      · cases h
      · injection h with h
        exact Or.inr h
      · cases h
    rcases hn' with h | h
    · subst h
      exact ⟨[Ev.spawned "a"], [],
        [Ev.ended "b", Ev.began "a", Ev.ended "a"], rfl⟩
    · subst h
      exact ⟨[], [Ev.spawned "b", Ev.began "b", Ev.ended "b"],
        [Ev.ended "a"], rfl⟩
  · intro n hn
    simp only [List.mem_cons, List.not_mem_nil, or_false] at hn
    have hn' : n = "b" ∨ n = "a" := by
      rcases hn with h | h | h | h | h | h
      · cases h
      · cases h
      · cases h
      · injection h with h
        exact Or.inl h
      · cases h
      · injection h with h
        exact Or.inr h
    rcases hn' with h | h
    · subst h
      exact ⟨[Ev.spawned "a", Ev.spawned "b"], [],
        [Ev.began "a", Ev.ended "a"], rfl⟩
    · subst h
      exact ⟨[Ev.spawned "a", Ev.spawned "b", Ev.began "b", Ev.ended "b"],
        [], [], rfl⟩
  · intro n
    by_cases h1 : n = "a"
    · subst h1
      exact ⟨by decide, by decide⟩
    · by_cases h2 : n = "b"
      · subst h2
        exact ⟨by decide, by decide⟩
      · have e1 : List.count (Ev.began n)
            [Ev.spawned "a", Ev.spawned "b", Ev.began "b", Ev.ended "b",
              Ev.began "a", Ev.ended "a"] = 0 := by
          rw [List.count_eq_zero]
          simp [h1, h2]
        have e2 : List.count (Ev.ended n)
            [Ev.spawned "a", Ev.spawned "b", Ev.began "b", Ev.ended "b",
              Ev.began "a", Ev.ended "a"] = 0 := by
          rw [List.count_eq_zero]
          simp [h1, h2]
        constructor
        · rw [e1]
          omega
        · rw [e2]
          omega
  · intro hb
    have hnd : ([Ev.spawned "a", Ev.spawned "b", Ev.began "b", Ev.ended "b",
        Ev.began "a", Ev.ended "a"]).Nodup := by decide
    have hlt := natIdx_lt_of_before hnd hb
    have h1 : natIdx [Ev.spawned "a", Ev.spawned "b", Ev.began "b",
        Ev.ended "b", Ev.began "a", Ev.ended "a"] (Ev.ended "a") = 5 := by
      decide
    have h2 : natIdx [Ev.spawned "a", Ev.spawned "b", Ev.began "b",
        Ev.ended "b", Ev.began "a", Ev.ended "a"] (Ev.began "b") = 2 := by
      decide
    rw [h1, h2] at hlt
    omega

/-- C2 amended: what the code does guarantee is launch-order: when B lists
A as a dependency, A's goroutine is spawned (and A is appended to the
started order) strictly before B's goroutine is spawned, in every
admissible run.  Completion of A's start operation is not awaited. -/
theorem claim_C2_amended (g : Registry) (hk : NodupKeys g)
    (hfull : ∀ p ∈ g, ∀ x ∈ p.2, x ∈ keys g) (hacyc : Acyclic g)
    {a b : String} (hdep : DependsOn g b a) :
    ∃ ord, start ⟨g, [], []⟩ = .ok ⟨g, ord, ord⟩ ord ∧
      Before ord a b ∧
      ∀ t, Admissible ord t →
        Before t (Ev.spawned a) (Ev.spawned b) := by
  obtain ⟨ord, hs, hst, hok⟩ := start_ok g hk hfull hacyc
  have hb : b ∈ keys g := by
    obtain ⟨p, hp, he, _⟩ := hdep
    rw [← he]
    exact List.mem_map.mpr ⟨p, hp, rfl⟩
  have hbefore : Before ord a b := sortOk_before hok hdep (hok.keysMem b hb)
  exact ⟨ord, hst, hbefore, fun t hadm => before_spawn hadm.1 hbefore⟩

theorem claim_C2_amended_witness :
    (NodupKeys [("a", []), ("b", ["a"])] ∧
      Acyclic [("a", []), ("b", ["a"])] ∧
      DependsOn [("a", []), ("b", ["a"])] "b" "a") ∧
    (∃ ord, start ⟨[("a", []), ("b", ["a"])], [], []⟩ =
        .ok ⟨[("a", []), ("b", ["a"])], ord, ord⟩ ord ∧
      Before ord "a" "b" ∧
      ∀ t, Admissible ord t →
        Before t (Ev.spawned "a") (Ev.spawned "b")) :=
  ⟨⟨by decide, acyclic_pair_ab, ⟨("b", ["a"]), by simp, rfl, by simp⟩⟩,
    claim_C2_amended [("a", []), ("b", ["a"])] (by decide) (by decide)
      acyclic_pair_ab ⟨("b", ["a"]), by simp, rfl, by simp⟩⟩

/-- C4 as stated is false on the code: `g.order = append(g.order, name)`
(line 255) runs unconditionally right after the goroutine is launched, so a
service whose start operation fails is still appended to the started-order
sequence and is still passed to `Stop`.  Here service x's start fails
(every start fails under this error assignment), yet x is in `g.order` and
in the stop-launch list. -/
theorem claim_C4_counterexample :
    start ⟨[("x", [])], [], []⟩ = .ok ⟨[("x", [])], ["x"], ["x"]⟩ ["x"] ∧
    startFailures ["x"] (fun _ => true) = ["x"] ∧
    "x" ∈ (GState.mk [("x", [])] ["x"] ["x"]).order ∧
    stopLaunches ⟨[("x", [])], ["x"], ["x"]⟩ = ["x"] := by
  refine ⟨?_, rfl, by simp, rfl⟩
  simp [start, sort, initDegree, seedQueue, seedStep, keys, ensureKey,
    containsKey, getD, bumpDeg, kahnLoop, alookup, decDeps, decAt, startLoop]

/-- C4 amended: a service whose start operation fails is nevertheless
appended to the started-order sequence, and its stop operation is
consequently invoked by `Stop`; sibling services are unaffected either
way, since the appended order does not depend on the error assignment at
all. -/
theorem claim_C4_amended (g : Registry) (hk : NodupKeys g)
    (hfull : ∀ p ∈ g, ∀ x ∈ p.2, x ∈ keys g) (hacyc : Acyclic g)
    (startErr : String → Bool) :
    ∃ ord, start ⟨g, [], []⟩ = .ok ⟨g, ord, ord⟩ ord ∧
      (∀ x ∈ startFailures ord startErr,
        x ∈ (GState.mk g ord ord).order ∧ x ∈ stopLaunches ⟨g, ord, ord⟩) ∧
      (∀ x ∈ keys g, x ∈ (GState.mk g ord ord).order) := by
  obtain ⟨ord, hs, hst, hok⟩ := start_ok g hk hfull hacyc
  have hsl : stopLaunches ⟨g, ord, ord⟩ = ord.reverse :=
    stopLaunches_eq (fun n hn => hok.memKeys n hn)
  refine ⟨ord, hst, ?_, fun x hx => hok.keysMem x hx⟩
  intro x hx
  have hmem : x ∈ ord := List.mem_of_mem_filter hx
  exact ⟨hmem, by rw [hsl, List.mem_reverse]; exact hmem⟩

theorem claim_C4_amended_witness :
    (NodupKeys [("x", [])] ∧ Acyclic [("x", [])]) ∧
    (∃ ord, start ⟨[("x", [])], [], []⟩ =
        .ok ⟨[("x", [])], ord, ord⟩ ord ∧
      (∀ x ∈ startFailures ord (fun _ => true),
        x ∈ (GState.mk [("x", [])] ord ord).order ∧
          x ∈ stopLaunches ⟨[("x", [])], ord, ord⟩) ∧
      (∀ x ∈ keys [("x", [])], x ∈ (GState.mk [("x", [])] ord ord).order)) :=
  ⟨⟨by decide, acyclic_single_x⟩,
    claim_C4_amended [("x", [])] (by decide) (by decide) acyclic_single_x
      (fun _ => true)⟩

/-- C8 as stated is false on the code: duplicating a dependency entry can
change the position at which the dependency's in-degree reaches zero during
the scan of the dependent's list, and hence the enqueue order and the final
sorted sequence.  With b depending on a, c, a the duplicate makes c hit
zero before a; with a single entry a hits zero first. -/
theorem claim_C8_counterexample :
    sort [("a", []), ("c", []), ("b", ["a", "c", "a"])] =
      Except.ok ["a", "c", "b"] ∧
    sort [("a", []), ("c", []), ("b", ["a", "c"])] =
      Except.ok ["c", "a", "b"] ∧
    (["a", "c", "b"] : List String) ≠ ["c", "a", "b"] := by
  refine ⟨?_, ?_, by decide⟩
  · simp [sort, initDegree, seedQueue, seedStep, keys, ensureKey, containsKey,
      getD, bumpDeg, kahnLoop, alookup, decDeps, decAt]
  · simp [sort, initDegree, seedQueue, seedStep, keys, ensureKey, containsKey,
      getD, bumpDeg, kahnLoop, alookup, decDeps, decAt]

/-- C8 amended: a registry whose dependency lists are membership-equivalent
to another's (same keys, same set of dependencies per service — in
particular one with duplicate entries removed) still sorts successfully,
and its order is a permutation of the other's that equally respects every
dependency; only the exact sequence may differ.  Start consequently starts
the same set of services, each exactly once. -/
theorem claim_C8_amended (g g' : Registry) (hkeys : keys g' = keys g)
    (hedge : ∀ n x, DependsOn g n x ↔ DependsOn g' n x)
    (hk : NodupKeys g) (hfull : ∀ p ∈ g, ∀ x ∈ p.2, x ∈ keys g)
    (hacyc : Acyclic g) :
    ∃ ord ord', sort g = Except.ok ord ∧ sort g' = Except.ok ord' ∧
      ord.Perm ord' ∧
      (∀ n x, DependsOn g n x → Before ord x n ∧ Before ord' x n) ∧
      start ⟨g, [], []⟩ = .ok ⟨g, ord, ord⟩ ord ∧
      start ⟨g', [], []⟩ = .ok ⟨g', ord', ord'⟩ ord' := by
  have hk' : NodupKeys g' := by
    rw [NodupKeys, hkeys]
    exact hk
  have hfull' : ∀ p ∈ g', ∀ x ∈ p.2, x ∈ keys g' := by
    intro p hp x hx
    have hd : DependsOn g p.1 x := (hedge p.1 x).mpr ⟨p, hp, rfl, hx⟩
    obtain ⟨q, hq, he, hxq⟩ := hd
    rw [hkeys]
    exact hfull q hq x hxq
  have hacyc' : Acyclic g' := by
    intro z hz
    exact hacyc z (Relation.TransGen.mono (fun a b h => (hedge a b).mpr h) hz)
  obtain ⟨ord, hs, hst, hok⟩ := start_ok g hk hfull hacyc
  obtain ⟨ord', hs', hst', hok'⟩ := start_ok g' hk' hfull' hacyc'
  have hperm : ord.Perm ord' := by
    rw [List.perm_ext_iff_of_nodup hok.nodup hok'.nodup]
    intro n
    constructor
    · intro hn
      refine hok'.keysMem n ?_
      rw [hkeys]
      exact hok.memKeys n hn
    · intro hn
      refine hok.keysMem n ?_
      rw [← hkeys]
      exact hok'.memKeys n hn
  refine ⟨ord, ord', hs, hs', hperm, ?_, hst, hst'⟩
  intro n x hdep
  have hn : n ∈ keys g := by
    obtain ⟨p, hp, he, _⟩ := hdep
    rw [← he]
    exact List.mem_map.mpr ⟨p, hp, rfl⟩
  constructor
  · exact sortOk_before hok hdep (hok.keysMem n hn)
  · refine sortOk_before hok' ((hedge n x).mp hdep) (hok'.keysMem n ?_)
    rw [hkeys]
    exact hn

theorem acyclic_dup_acb :
    Acyclic [("a", []), ("c", []), ("b", ["a", "c", "a"])] := by
  refine acyclic_of_rank _ (fun s => if s = "b" then 1 else 0) ?_
  rintro n x ⟨p, hp, he, hx⟩
  rcases List.mem_cons.mp hp with h | h
  · rw [h] at hx
    simp at hx
  · rcases List.mem_cons.mp h with h | h
    · rw [h] at hx
      simp at hx
    · rcases List.mem_cons.mp h with h | h
      · rw [h] at he hx
        simp only at he
        subst he
        simp only [List.mem_cons, List.not_mem_nil, or_false] at hx
        rcases hx with hx | hx | hx
        · subst hx
          simp
        · subst hx
          simp
        · subst hx
          simp
      · simp at h

theorem dup_edge_equiv : ∀ n x,
    DependsOn [("a", []), ("c", []), ("b", ["a", "c", "a"])] n x ↔
    DependsOn [("a", []), ("c", []), ("b", ["a", "c"])] n x := by
  intro n x
  constructor
  · rintro ⟨p, hp, he, hx⟩
    rcases List.mem_cons.mp hp with h | h
    · rw [h] at hx
      simp at hx
    · rcases List.mem_cons.mp h with h | h
      · rw [h] at hx
        simp at hx
      · rcases List.mem_cons.mp h with h | h
        · rw [h] at he hx
          refine ⟨("b", ["a", "c"]), by simp, he, ?_⟩
          simp at hx ⊢
          tauto
        · simp at h
  · rintro ⟨p, hp, he, hx⟩
    rcases List.mem_cons.mp hp with h | h
    · rw [h] at hx
      simp at hx
    · rcases List.mem_cons.mp h with h | h
      · rw [h] at hx
        simp at hx
      · rcases List.mem_cons.mp h with h | h
        · rw [h] at he hx
          refine ⟨("b", ["a", "c", "a"]), by simp, he, ?_⟩
          simp at hx ⊢
          tauto
        · simp at h

theorem claim_C8_amended_witness :
    (keys [("a", []), ("c", []), ("b", ["a", "c"])] =
        keys [("a", []), ("c", []), ("b", ["a", "c", "a"])] ∧
      NodupKeys [("a", []), ("c", []), ("b", ["a", "c", "a"])] ∧
      Acyclic [("a", []), ("c", []), ("b", ["a", "c", "a"])]) ∧
    (∃ ord ord',
      sort [("a", []), ("c", []), ("b", ["a", "c", "a"])] = Except.ok ord ∧
      sort [("a", []), ("c", []), ("b", ["a", "c"])] = Except.ok ord' ∧
      ord.Perm ord' ∧
      (∀ n x, DependsOn [("a", []), ("c", []), ("b", ["a", "c", "a"])] n x →
        Before ord x n ∧ Before ord' x n) ∧
      start ⟨[("a", []), ("c", []), ("b", ["a", "c", "a"])], [], []⟩ =
        .ok ⟨[("a", []), ("c", []), ("b", ["a", "c", "a"])], ord, ord⟩ ord ∧
      start ⟨[("a", []), ("c", []), ("b", ["a", "c"])], [], []⟩ =
        .ok ⟨[("a", []), ("c", []), ("b", ["a", "c"])], ord', ord'⟩ ord') :=
  ⟨⟨by decide, by decide, acyclic_dup_acb⟩,
    claim_C8_amended
      [("a", []), ("c", []), ("b", ["a", "c", "a"])]
      [("a", []), ("c", []), ("b", ["a", "c"])]
      (by decide) dup_edge_equiv (by decide) (by decide) acyclic_dup_acb⟩

end Graceful
